import Mathlib

/-!
# MosaicGo-Web: the mosaic pipeline of `mosaic.go` and `main.go`

A shallow embedding of the tile index lookup (`getNearestTile`, `distance`,
`square`), of `averageColor`, of `resize`, of the region renderer `cut`, of the
quadrant partition computed by `mosaic` and of the compositor `combine`.

Modelling conventions.

* Go `int` is `Int`; Go's `/` on `int` truncates toward zero and is `Int.tdiv`.
  Image dimensions are far below `2^63`, so wrap-around is not modelled.
* Go `float64` is IEEE 754 binary64 (`F64`): a finite value is the rational it
  denotes, and every operation computes the exact rational result and rounds it
  to the nearest binary64 value, ties to even, with gradual underflow and
  overflow to infinity (`F64.round`); `math.Sqrt` is the correctly rounded square
  root (`F64.sqrt`).  Each operation is rounded on its own, as the Go compiler
  does on amd64 (no fused multiply-add).  The sign of a zero is not tracked: no
  sum, product, square root or comparison of the program depends on it, and the
  only divisor of the program is the conversion of an `int`, never a negative
  zero.
* A Go map is a list of key/value pairs in the order the `range` loop visits
  them; the theorems hold for every such order.
* `image.Image` is observed through `Bounds()` and `At(x, y).RGBA()`.
* Loops whose step is a run-time value are run with a step budget (`fuel`).
-/

namespace MosaicGo

/-! ## Go's `float64` -/

/-- A `float64` value: a finite value (the rational number it denotes), an
infinity or a NaN. -/
inductive F64 where
  /-- A finite value. -/
  | finite (q : ℚ)
  /-- Positive infinity. -/
  | posInf
  /-- Negative infinity. -/
  | negInf
  /-- Not a number. -/
  | nan
deriving DecidableEq

/-- The integer nearest to `q`, ties to the even one. -/
def roundHalfEven (q : ℚ) : ℤ :=
  if q - ⌊q⌋ < 1 / 2 then ⌊q⌋
  else if 1 / 2 < q - ⌊q⌋ then ⌊q⌋ + 1
  else if ⌊q⌋ % 2 = 0 then ⌊q⌋ else ⌊q⌋ + 1

/-- The exponent of the last mantissa bit of the binary64 values around the
magnitude `x > 0`: 52 below the exponent of `x`, and never below `-1074` (the
subnormal range). -/
def ulpExp (x : ℚ) : ℤ := max (Int.log 2 x - 52) (-1074)

/-- The magnitude `x > 0` rounded to 53 significant bits, ties to even. -/
def roundMag (x : ℚ) : ℚ := (roundHalfEven (x / 2 ^ ulpExp x) : ℚ) * 2 ^ ulpExp x

/-- The binary64 value nearest to the rational `x`, ties to even; a result of
magnitude `2^1024` or more overflows to an infinity. -/
def F64.round (x : ℚ) : F64 :=
  if x = 0 then .finite 0
  else if 0 < x then (if roundMag x < 2 ^ 1024 then .finite (roundMag x) else .posInf)
  else (if roundMag (-x) < 2 ^ 1024 then .finite (-roundMag (-x)) else .negInf)

/-- The integer nearest to the square root of `q ≥ 0`, ties to even:
`m = ⌊√q⌋`, and `√q` is compared with `m + 1/2` through `q` and `(m + 1/2)²`. -/
def sqrtNearest (q : ℚ) : ℕ :=
  let m := Nat.sqrt ⌊q⌋₊
  let c : ℚ := (m : ℚ) ^ 2 + m + 1 / 4
  if q < c then m else if c < q then m + 1 else if m % 2 = 0 then m else m + 1

/-- The square root of `x > 0` rounded to 53 significant bits, ties to even: with
`e` the exponent of the last mantissa bit of `√x`, the integer nearest to
`√x / 2^e = √(x / 2^(2e))`, times `2^e`. -/
def sqrtMag (x : ℚ) : ℚ :=
  (sqrtNearest (x / 2 ^ (2 * (Int.log 2 x / 2 - 52))) : ℚ) * 2 ^ (Int.log 2 x / 2 - 52)

/-- Go's `a < b` on `float64`: false as soon as one side is a NaN. -/
def F64.lt : F64 → F64 → Bool
  | .finite a, .finite b => decide (a < b)
  | .finite _, .posInf => true
  | .negInf, .finite _ => true
  | .negInf, .posInf => true
  | _, _ => false

/-- Go's unary `-a` on `float64`. -/
def F64.neg : F64 → F64
  | .finite a => .finite (-a)
  | .posInf => .negInf
  | .negInf => .posInf
  | .nan => .nan

/-- Go's `a + b` on `float64`. -/
def F64.add : F64 → F64 → F64
  | .finite a, .finite b => F64.round (a + b)
  | .nan, _ => .nan
  | _, .nan => .nan
  | .posInf, .negInf => .nan
  | .negInf, .posInf => .nan
  | .posInf, _ => .posInf
  | _, .posInf => .posInf
  | .negInf, _ => .negInf
  | _, .negInf => .negInf

/-- Go's `a - b` on `float64`. -/
def F64.sub (a b : F64) : F64 := F64.add a (F64.neg b)

/-- Go's `a * b` on `float64`. -/
def F64.mul : F64 → F64 → F64
  | .finite a, .finite b => F64.round (a * b)
  | .nan, _ => .nan
  | _, .nan => .nan
  | .finite a, .posInf => if a = 0 then .nan else if 0 < a then .posInf else .negInf
  | .finite a, .negInf => if a = 0 then .nan else if 0 < a then .negInf else .posInf
  | .posInf, .finite b => if b = 0 then .nan else if 0 < b then .posInf else .negInf
  | .negInf, .finite b => if b = 0 then .nan else if 0 < b then .negInf else .posInf
  | .posInf, .posInf => .posInf
  | .negInf, .negInf => .posInf
  | .posInf, .negInf => .negInf
  | .negInf, .posInf => .negInf

/-- Go's `a / b` on `float64`, for a divisor that is not a negative zero. -/
def F64.div : F64 → F64 → F64
  | .finite a, .finite b =>
    if b = 0 then (if a = 0 then .nan else if 0 < a then .posInf else .negInf)
    else F64.round (a / b)
  | .nan, _ => .nan
  | _, .nan => .nan
  | .finite _, _ => .finite 0
  | .posInf, .finite b => if 0 ≤ b then .posInf else .negInf
  | .negInf, .finite b => if 0 ≤ b then .negInf else .posInf
  | _, _ => .nan

/-- Go's `math.Sqrt`. -/
def F64.sqrt : F64 → F64
  | .finite a => if a < 0 then .nan else if a = 0 then .finite 0 else .finite (sqrtMag a)
  | .posInf => .posInf
  | _ => .nan

/-- Go's conversion `float64(n)` of an unsigned integer. -/
def F64.ofNat (n : Nat) : F64 := F64.round (n : ℚ)

/-- Go's conversion `float64(n)` of an `int`. -/
def F64.ofInt (n : Int) : F64 := F64.round (n : ℚ)

/-- A non-negative rational that is a binary64 value: `M · 2^E` with a mantissa
below `2^53` and an exponent between `-1074` and `971`. -/
def Representable (x : ℚ) : Prop :=
  ∃ (M : ℕ) (E : ℤ), M < 2 ^ 53 ∧ -1074 ≤ E ∧ E ≤ 971 ∧ x = (M : ℚ) * 2 ^ E

/-- A finite value on the 16-bit scale `[0, 65535]`. -/
def F64.InRange : F64 → Prop
  | .finite q => 0 ≤ q ∧ q ≤ 65535
  | _ => False

instance (a : F64) : Decidable a.InRange := by
  cases a <;> unfold F64.InRange <;> infer_instance

/-! ## Tile index lookup (`mosaic.go`) -/

/-- Go's `[3]float64`: the red, green and blue channel of a colour. -/
structure Color3 where
  c0 : F64
  c1 : F64
  c2 : F64
deriving DecidableEq

/-- The function `square` of `mosaic.go`. -/
def square (n : F64) : F64 := F64.mul n n

/-- The function `distance` of `mosaic.go`:
`math.Sqrt(square(c1[0]-c2[0]) + square(c1[1]-c2[1]) + square(c1[2]-c2[2]))`. -/
def distance (color1 color2 : Color3) : F64 :=
  F64.sqrt (F64.add
    (F64.add (square (F64.sub color1.c0 color2.c0)) (square (F64.sub color1.c1 color2.c1)))
    (square (F64.sub color1.c2 color2.c2)))

/-- The initial value `1e9` of `smallest` in `getNearestTile`. -/
def smallestInit : F64 := .finite 1000000000

/-- One iteration of the `range db.store` loop of `getNearestTile`: the state is
`(filename, smallest)`. -/
def nearestStep (target : Color3) (st : String × F64) (kv : String × Color3) : String × F64 :=
  let distance := distance target kv.2
  if F64.lt distance st.2 then (kv.1, distance) else st

/-- The method `getNearestTile` of `mosaic.go` over the entries of `db.store` in iteration
order.  `filename` starts as the empty string (Go's zero value). -/
def getNearestTile (store : List (String × Color3)) (target : Color3) : String :=
  (store.foldl (nearestStep target) ("", smallestInit)).1

/-- All three channels are finite and lie in the 16-bit scale `[0, 65535]`. -/
def Color3.InRange (c : Color3) : Prop :=
  c.c0.InRange ∧ c.c1.InRange ∧ c.c2.InRange

instance (c : Color3) : Decidable c.InRange := by
  unfold Color3.InRange
  infer_instance

/-- Go's `image.Point`. -/
structure Point where
  X : Int
  Y : Int
deriving DecidableEq

/-- Go's `image.Rectangle`: the points with `Min.X ≤ x < Max.X`, `Min.Y ≤ y < Max.Y`. -/
structure Rectangle where
  Min : Point
  Max : Point
deriving DecidableEq

/-- The zero rectangle `image.ZR`. -/
def ZR : Rectangle := ⟨⟨0, 0⟩, ⟨0, 0⟩⟩

/-- Go's `image.Rect`: the rectangle with the given corners, put in canonical order. -/
def Rect (x0 y0 x1 y1 : Int) : Rectangle :=
  let (x0, x1) := if x0 > x1 then (x1, x0) else (x0, x1)
  let (y0, y1) := if y0 > y1 then (y1, y0) else (y0, y1)
  ⟨⟨x0, y0⟩, ⟨x1, y1⟩⟩

/-- The width, `Rectangle.Dx`. -/
def Rectangle.Dx (r : Rectangle) : Int := r.Max.X - r.Min.X

/-- The height, `Rectangle.Dy`. -/
def Rectangle.Dy (r : Rectangle) : Int := r.Max.Y - r.Min.Y

/-- Go's `Rectangle.Empty`: whether the rectangle holds no point. -/
def Rectangle.Empty (r : Rectangle) : Bool :=
  decide (r.Min.X ≥ r.Max.X) || decide (r.Min.Y ≥ r.Max.Y)

/-- Go's `Point.In`: whether the point `(x, y)` lies in `r`. -/
def Rectangle.Has (r : Rectangle) (x y : Int) : Bool :=
  decide (r.Min.X ≤ x) && decide (x < r.Max.X) && decide (r.Min.Y ≤ y) && decide (y < r.Max.Y)

/-- Go's `Rectangle.Add`: the rectangle translated by `p`. -/
def Rectangle.Add (r : Rectangle) (p : Point) : Rectangle :=
  ⟨⟨r.Min.X + p.X, r.Min.Y + p.Y⟩, ⟨r.Max.X + p.X, r.Max.Y + p.Y⟩⟩

/-- Go's `Rectangle.Intersect`: the largest rectangle contained in both, `ZR` when
they do not overlap. -/
def Rectangle.Intersect (r s : Rectangle) : Rectangle :=
  let r1 : Rectangle :=
    ⟨⟨if r.Min.X < s.Min.X then s.Min.X else r.Min.X,
      if r.Min.Y < s.Min.Y then s.Min.Y else r.Min.Y⟩,
     ⟨if r.Max.X > s.Max.X then s.Max.X else r.Max.X,
      if r.Max.Y > s.Max.Y then s.Max.Y else r.Max.Y⟩⟩
  if r1.Empty then ZR else r1

/-- The corner coordinates `x1, y1, x2, y2` that `mosaic` passes to one `cut`. -/
structure Region where
  x1 : Int
  y1 : Int
  x2 : Int
  y2 : Int
deriving DecidableEq

/-- The pixels of the region: `x1 ≤ x < x2` and `y1 ≤ y < y2`. -/
def Region.Covers (r : Region) (x y : Int) : Prop :=
  r.x1 ≤ x ∧ x < r.x2 ∧ r.y1 ≤ y ∧ y < r.y2

instance (r : Region) (x y : Int) : Decidable (r.Covers x y) := by
  unfold Region.Covers
  infer_instance

/-- The number of pixels of a region with `x1 ≤ x2` and `y1 ≤ y2`. -/
def Region.area (r : Region) : Int := (r.x2 - r.x1) * (r.y2 - r.y1)

/-- The rectangle of a region with `x1 ≤ x2` and `y1 ≤ y2`: the bounds of the
buffer its render returns. -/
def Region.toRect (r : Region) : Rectangle := ⟨⟨r.x1, r.y1⟩, ⟨r.x2, r.y2⟩⟩

/-- The arguments of the four `cut` calls of `mosaic` (`main.go`, lines 79-82), for
`c1`, `c2`, `c3` and `c4` in this order.  Go's `/` is truncated division. -/
def quadrant (bounds : Rectangle) : Fin 4 → Region
  | 0 => ⟨bounds.Min.X, bounds.Min.Y, Int.tdiv bounds.Max.X 2, Int.tdiv bounds.Max.Y 2⟩
  | 1 => ⟨Int.tdiv bounds.Max.X 2, bounds.Min.Y, bounds.Max.X, Int.tdiv bounds.Max.Y 2⟩
  | 2 => ⟨bounds.Min.X, Int.tdiv bounds.Max.Y 2, Int.tdiv bounds.Max.X 2, bounds.Max.Y⟩
  | 3 => ⟨Int.tdiv bounds.Max.X 2, Int.tdiv bounds.Max.Y 2, bounds.Max.X, bounds.Max.Y⟩

/-! ## Images and colours -/

/-- The result of Go's `Color.RGBA()`: four `uint32` channel values on the 16-bit
scale. -/
structure RGBA where
  R : Nat
  G : Nat
  B : Nat
  A : Nat
deriving DecidableEq

/-- Go's `color.NRGBA`: 8-bit channels, alpha not premultiplied. -/
structure NRGBA where
  R : Nat
  G : Nat
  B : Nat
  A : Nat
deriving DecidableEq

/-- The method `NRGBA.RGBA` of `image/color`: `r |= r << 8; r *= a; r /= 0xff`, and
`a |= a << 8`. -/
def NRGBA.RGBA (c : NRGBA) : RGBA :=
  ⟨(c.R ||| (c.R <<< 8)) * c.A / 255, (c.G ||| (c.G <<< 8)) * c.A / 255,
   (c.B ||| (c.B <<< 8)) * c.A / 255, c.A ||| (c.A <<< 8)⟩

/-- An `image.Image` as the program observes it: `Bounds()` and
`At(x, y).RGBA()`.  What `At` returns outside the bounds is up to the image. -/
structure Image where
  Rect : Rectangle
  At : Int → Int → RGBA

/-- Go's `*image.NRGBA`: its `Rect` and its pixels. -/
structure NRGBAImage where
  Rect : Rectangle
  pix : Int → Int → NRGBA

/-- Go's `image.NewNRGBA`: every pixel is the zero colour (transparent). -/
def NewNRGBA (r : Rectangle) : NRGBAImage := ⟨r, fun _ _ => ⟨0, 0, 0, 0⟩⟩

/-- Go's `(*NRGBA).NRGBAAt`: the zero colour outside the bounds. -/
def NRGBAImage.NRGBAAt (p : NRGBAImage) (x y : Int) : NRGBA :=
  if p.Rect.Has x y then p.pix x y else ⟨0, 0, 0, 0⟩

/-- Go's `(*NRGBA).SetNRGBA`: no effect outside the bounds. -/
def NRGBAImage.SetNRGBA (p : NRGBAImage) (x y : Int) (c : NRGBA) : NRGBAImage :=
  if p.Rect.Has x y then
    { p with pix := fun x' y' => if x' = x ∧ y' = y then c else p.pix x' y' }
  else p

/-- Go's `(*NRGBA).SubImage`: the part of the image visible through `r`, sharing its
pixels; the empty image when `r` misses the bounds. -/
def NRGBAImage.SubImage (p : NRGBAImage) (r : Rectangle) : NRGBAImage :=
  let r := r.Intersect p.Rect
  if r.Empty then ⟨ZR, fun _ _ => ⟨0, 0, 0, 0⟩⟩ else ⟨r, p.pix⟩

/-- The function `clip` of `image/draw` without a mask: the rectangle really drawn and the
source point aligned with its corner. -/
def clip (dstBounds r srcBounds : Rectangle) (sp : Point) : Rectangle × Point :=
  let orig := r.Min
  let r := r.Intersect dstBounds
  let r := r.Intersect (srcBounds.Add ⟨orig.X - sp.X, orig.Y - sp.Y⟩)
  let dx := r.Min.X - orig.X
  let dy := r.Min.Y - orig.Y
  if dx = 0 ∧ dy = 0 then (r, sp) else (r, ⟨sp.X + dx, sp.Y + dy⟩)

/-- Go's `draw.Draw(dst, r, src, sp, draw.Src)` of `image/draw` between two
`*image.NRGBA`: after clipping, every pixel of `r` in `dst` is replaced by the
pixel of `src` at the same offset from `sp`. -/
def draw (dst : NRGBAImage) (r : Rectangle) (src : NRGBAImage) (sp : Point) : NRGBAImage :=
  let c := clip dst.Rect r src.Rect sp
  if c.1.Empty then dst
  else
    { dst with
      pix := fun x y =>
        if c.1.Has x y then src.NRGBAAt (c.2.X + (x - c.1.Min.X)) (c.2.Y + (y - c.1.Min.Y))
        else dst.pix x y }

/-! ## Loops with a run-time step -/

/-- How a run ended, with the state it reached. -/
inductive Outcome (σ : Type) where
  /-- The code ran to its end. -/
  | finished (s : σ)
  /-- A run-time panic (integer divide by zero) stopped it. -/
  | panicked (s : σ)
  /-- The step budget ran out while it was still looping. -/
  | running (s : σ)

/-- The state an outcome carries. -/
def Outcome.state {σ : Type} : Outcome σ → σ
  | .finished s => s
  | .panicked s => s
  | .running s => s

/-- Whether the run reached its end. -/
def Outcome.isFinished {σ : Type} : Outcome σ → Bool
  | .finished _ => true
  | _ => false

/-- Whether the run ended in a panic. -/
def Outcome.isPanicked {σ : Type} : Outcome σ → Bool
  | .panicked _ => true
  | _ => false

/-- Go's `for i := init; cond(i); i = post(i) { body }` run for at most `fuel`
iterations. -/
def forLoop {ι σ : Type} (cond : ι → Bool) (post : ι → ι) (body : ι → σ → Outcome σ) :
    Nat → ι → σ → Outcome σ
  | 0, i, s => if cond i then .running s else .finished s
  | fuel + 1, i, s =>
    if cond i then
      match body i s with
      | .finished s' => forLoop cond post body fuel (post i) s'
      | o => o
    else .finished s

/-! ## `resize` and `averageColor` (`mosaic.go`) -/

/-- What `resize` has done so far: the output image and, for the record, the
source coordinates it has read with `img.At`. -/
structure ResizeState where
  output : NRGBAImage
  reads : List Point

/-- The pixel `resize` stores for a source colour:
`color.NRGBA{uint8(r>>8), uint8(g>>8), uint8(b>>8), uint8(a>>8)}`. -/
def resizePixel (c : RGBA) : NRGBA :=
  ⟨(c.R >>> 8) % 256, (c.G >>> 8) % 256, (c.B >>> 8) % 256, (c.A >>> 8) % 256⟩

/-- The inner loop body of `resize` at loop variables `(x, i)` and `(y, j)`. -/
def resizeCell (img : Image) (yj xi : Int × Int) (s : ResizeState) : Outcome ResizeState :=
  .finished ⟨s.output.SetNRGBA xi.2 yj.2 (resizePixel (img.At xi.1 yj.1)),
    s.reads ++ [⟨xi.1, yj.1⟩]⟩

/-- The inner loop of `resize`: `for x, i := Min.X, Min.X; x < Max.X; x, i = x+ratio, i+1`. -/
def resizeRow (fuel : Nat) (img : Image) (ratio : Int) (yj : Int × Int) (s : ResizeState) :
    Outcome ResizeState :=
  forLoop (fun xi : Int × Int => decide (xi.1 < img.Rect.Max.X))
    (fun xi => (xi.1 + ratio, xi.2 + 1)) (resizeCell img yj) fuel
    (img.Rect.Min.X, img.Rect.Min.X) s

/-- The function `resize` of `mosaic.go`.  Both divisions panic on a zero divisor. -/
def resize (fuel : Nat) (img : Image) (newWidth : Int) : Outcome ResizeState :=
  let bounds := img.Rect
  let width := bounds.Dx
  if newWidth = 0 then .panicked ⟨NewNRGBA ZR, []⟩
  else
    let ratio := Int.tdiv width newWidth
    if ratio = 0 then .panicked ⟨NewNRGBA ZR, []⟩
    else
      let output := NewNRGBA (Rect (Int.tdiv bounds.Min.X ratio) (Int.tdiv bounds.Min.Y ratio)
        (Int.tdiv bounds.Max.X ratio) (Int.tdiv bounds.Max.Y ratio))
      forLoop (fun yj : Int × Int => decide (yj.1 < bounds.Max.Y))
        (fun yj => (yj.1 + ratio, yj.2 + 1)) (resizeRow fuel img ratio) fuel
        (bounds.Min.Y, bounds.Min.Y) ⟨output, []⟩

/-- The values `lo, lo+1, ..., hi-1` of a Go loop `for v := lo; v < hi; v++`. -/
def countUp (lo hi : Int) : List Int :=
  (List.range (hi - lo).toNat).map (fun (k : Nat) => lo + (k : Int))

/-- One pixel of the summation loop of `averageColor`:
`r, g, b = r + float64(r1), g + float64(g1), b + float64(b1)`. -/
def addPixel (img : Image) (y : Int) (acc : F64 × F64 × F64) (x : Int) : F64 × F64 × F64 :=
  (F64.add acc.1 (F64.ofNat (img.At x y).R), F64.add acc.2.1 (F64.ofNat (img.At x y).G),
    F64.add acc.2.2 (F64.ofNat (img.At x y).B))

/-- The channel sums `(r, g, b)` of `averageColor` after its two loops. -/
def channelSums (img : Image) : F64 × F64 × F64 :=
  (countUp img.Rect.Min.Y img.Rect.Max.Y).foldl
    (fun acc y => (countUp img.Rect.Min.X img.Rect.Max.X).foldl (addPixel img y) acc)
    (.finite 0, .finite 0, .finite 0)

/-- The function `averageColor` of `mosaic.go`. -/
def averageColor (img : Image) : Color3 :=
  let bounds := img.Rect
  let sums := channelSums img
  let totalPixels := F64.ofInt ((bounds.Max.X - bounds.Min.X) * (bounds.Max.Y - bounds.Min.Y))
  ⟨F64.div sums.1 totalPixels, F64.div sums.2.1 totalPixels, F64.div sums.2.2 totalPixels⟩

/-! ## The region renderer `cut` and the compositor `combine` (`main.go`) -/

/-- What a region render did, in order. -/
inductive Event where
  /-- The pixel `original.At(x, y)` was sampled. -/
  | sample (x y : Int)
  /-- The lookup `getNearestTile` returned this identifier. -/
  | lookup (name : String)
  /-- The resized tile was drawn at the cell with this corner. -/
  | drawn (x y : Int)
deriving DecidableEq

/-- The state of a region render: its buffer `newImage` and the record of what
it did. -/
structure RenderState where
  newImage : NRGBAImage
  log : List Event

/-- The body of the inner loop of `cut` at `(x, y)`.  `tiles name` is the image
that `os.Open(name)` followed by `image.Decode` yields, `none` when either
fails. -/
def cutCell (fuel : Nat) (tiles : String → Option Image) (original : Image)
    (store : List (String × Color3)) (tileSize : Int) (y x : Int) (s : RenderState) :
    Outcome RenderState :=
  let c := original.At x y
  let color : Color3 := ⟨F64.ofNat c.R, F64.ofNat c.G, F64.ofNat c.B⟩
  let nearest := getNearestTile store color
  let s1 : RenderState := ⟨s.newImage, s.log ++ [Event.sample x y, Event.lookup nearest]⟩
  match tiles nearest with
  | some img =>
    match resize fuel img tileSize with
    | .finished t =>
      let tile := t.output.SubImage t.output.Rect
      let tileBounds := Rect x y (x + tileSize) (y + tileSize)
      .finished ⟨draw s1.newImage tileBounds tile ⟨0, 0⟩, s1.log ++ [Event.drawn x y]⟩
    | .panicked _ => .panicked s1
    | .running _ => .running s1
  | none => .finished s1

/-- The inner loop of `cut` for the row `y`:
`for x := x1; x < x2; x = x + tileSize`. -/
def cutRow (fuel : Nat) (tiles : String → Option Image) (original : Image)
    (store : List (String × Color3)) (tileSize : Int) (r : Region) (y : Int)
    (s : RenderState) : Outcome RenderState :=
  forLoop (fun x : Int => decide (x < r.x2)) (fun x => x + tileSize)
    (cutCell fuel tiles original store tileSize y) fuel r.x1 s

/-- The two loops of `cut` over a fresh buffer:
`for y := y1; y < y2; y = y + tileSize` around the inner loop. -/
def cutRows (fuel : Nat) (tiles : String → Option Image) (original : Image)
    (store : List (String × Color3)) (tileSize : Int) (r : Region) : Outcome RenderState :=
  forLoop (fun y : Int => decide (y < r.y2)) (fun y => y + tileSize)
    (cutRow fuel tiles original store tileSize r) fuel r.y1
    ⟨NewNRGBA (Rect r.x1 r.y1 r.x2 r.y2), []⟩

/-- The goroutine of `cut`: the two loops over the region in steps of
`tileSize`, then `newImage.SubImage(newImage.Rect)` is sent on the channel. -/
def cut (fuel : Nat) (tiles : String → Option Image) (original : Image)
    (store : List (String × Color3)) (tileSize : Int) (r : Region) : Outcome RenderState :=
  match cutRows fuel tiles original store tileSize r with
  | .finished s => .finished ⟨s.newImage.SubImage s.newImage.Rect, s.log⟩
  | o => o

/-- The source point of the copy of region `i` in `combine` (`main.go`, lines
177-183). -/
def copyPoint (rec : Rectangle) : Fin 4 → Point
  | 0 => ⟨rec.Min.X, rec.Min.Y⟩
  | 1 => ⟨Int.tdiv rec.Max.X 2, rec.Min.Y⟩
  | 2 => ⟨rec.Min.X, Int.tdiv rec.Max.Y 2⟩
  | 3 => ⟨Int.tdiv rec.Max.X 2, Int.tdiv rec.Max.Y 2⟩

/-- One `copyImg` of `combine`: `draw.Draw(dst, s.Bounds(), s, sp, draw.Src)` for
the region buffer `s i`. -/
def copyImg (rec : Rectangle) (s : Fin 4 → NRGBAImage) (dst : NRGBAImage) (i : Fin 4) :
    NRGBAImage :=
  draw dst (s i).Rect (s i) (copyPoint rec i)

/-- The rectangle of destination pixels that the copy of region `i` writes: the
rectangle `draw.Draw` is left with after clipping. -/
def copyRect (rec : Rectangle) (s : Fin 4 → NRGBAImage) (dst : NRGBAImage) (i : Fin 4) :
    Rectangle :=
  (clip dst.Rect (s i).Rect (s i).Rect (copyPoint rec i)).1

/-- The image `combine` encodes: `image.NewNRGBA(rec)` after the four copies,
run in the order `order` in which the region buffers arrived. -/
def combine (order : List (Fin 4)) (rec : Rectangle) (s : Fin 4 → NRGBAImage) : NRGBAImage :=
  order.foldl (copyImg rec s) (NewNRGBA rec)

/-- The pipeline of `mosaic`: the four region renders over the quadrants of the
source bounds run side by side, and `combine` assembles their buffers once all
four have delivered.  A render that panics or never delivers leaves the job
without a response.  The log is the four renders' logs, region after region. -/
def mosaic (fuel : Nat) (tiles : String → Option Image) (original : Image)
    (store : List (String × Color3)) (tileSize : Int) (order : List (Fin 4)) :
    Outcome RenderState :=
  let bounds := original.Rect
  let c : Fin 4 → Outcome RenderState := fun i =>
    cut fuel tiles original store tileSize (quadrant bounds i)
  let log := (c 0).state.log ++ (c 1).state.log ++ (c 2).state.log ++ (c 3).state.log
  if (c 0).isFinished && (c 1).isFinished && (c 2).isFinished && (c 3).isFinished then
    .finished ⟨combine order bounds (fun i => (c i).state.newImage), log⟩
  else if (c 0).isPanicked || (c 1).isPanicked || (c 2).isPanicked || (c 3).isPanicked then
    .panicked ⟨NewNRGBA bounds, log⟩
  else .running ⟨NewNRGBA bounds, log⟩

/-! ## Concrete inputs -/

/-- A 4×2 tile image (wider than high), opaque, every pixel mid grey. -/
def tileWide : Image := ⟨⟨⟨0, 0⟩, ⟨4, 2⟩⟩, fun _ _ => ⟨32896, 32896, 32896, 65535⟩⟩

/-- A 5×5 opaque tile image, every pixel mid grey. -/
def tileFive : Image := ⟨⟨⟨0, 0⟩, ⟨5, 5⟩⟩, fun _ _ => ⟨32896, 32896, 32896, 65535⟩⟩

/-- A 1×1 opaque image with 16-bit depth: its pixel has the channel value `0x1234`. -/
def pixelDeep : Image := ⟨⟨⟨0, 0⟩, ⟨1, 1⟩⟩, fun _ _ => ⟨4660, 4660, 4660, 65535⟩⟩

/-- A 2×2 opaque 8-bit image with four different red values. -/
def tileTwo : Image :=
  ⟨⟨⟨0, 0⟩, ⟨2, 2⟩⟩, fun x y => ⟨(x.toNat + 2 * y.toNat) * 257, 0, 0, 65535⟩⟩

/-- A 3×1 opaque image with the red values 257, 0 and 0. -/
def tileThree : Image :=
  ⟨⟨⟨0, 0⟩, ⟨3, 1⟩⟩, fun x _ => ⟨if x = 0 then 257 else 0, 0, 0, 65535⟩⟩

/-- Four region buffers for a 3×3 output, filled with the red values 10, 20, 30
and 40. -/
def fourBuffers : Fin 4 → NRGBAImage := fun i =>
  ⟨(quadrant ⟨⟨0, 0⟩, ⟨3, 3⟩⟩ i).toRect, fun _ _ => ⟨10 * (i.val + 1), 0, 0, 255⟩⟩

/-! # Theorems -/

/-! ### Rounding to `float64` -/

theorem two_zpow_pos (e : ℤ) : (0 : ℚ) < 2 ^ e := zpow_pos (by norm_num) e

theorem roundHalfEven_intCast (n : ℤ) : roundHalfEven (n : ℚ) = n := by
  simp [roundHalfEven]

theorem roundHalfEven_le (q : ℚ) (n : ℤ) (h : q ≤ n) : roundHalfEven q ≤ n := by
  have h1 : (⌊q⌋ : ℚ) ≤ q := Int.floor_le q
  have hfl : ⌊q⌋ ≤ n := by exact_mod_cast le_trans h1 h
  unfold roundHalfEven
  split_ifs with a b c
  · exact hfl
  · have : (⌊q⌋ : ℚ) < n := by linarith
    have : ⌊q⌋ < n := by exact_mod_cast this
    omega
  · exact hfl
  · have : (⌊q⌋ : ℚ) < n := by linarith
    have : ⌊q⌋ < n := by exact_mod_cast this
    omega

theorem le_roundHalfEven (q : ℚ) (n : ℤ) (h : (n : ℚ) ≤ q) : n ≤ roundHalfEven q := by
  have : n ≤ ⌊q⌋ := Int.le_floor.2 h
  unfold roundHalfEven
  split_ifs <;> omega

theorem roundHalfEven_up (q : ℚ) (n : ℤ) (h1 : (n : ℚ) + 1 / 2 < q) (h2 : q < n + 1) :
    roundHalfEven q = n + 1 := by
  have hf : ⌊q⌋ = n := Int.floor_eq_iff.2 ⟨by linarith, h2⟩
  unfold roundHalfEven
  rw [hf, if_neg (by linarith), if_pos (by linarith)]

theorem log_bounds (x : ℚ) (hx : 0 < x) :
    (2 : ℚ) ^ Int.log 2 x ≤ x ∧ x < (2 : ℚ) ^ (Int.log 2 x + 1) := by
  have h1 := Int.zpow_log_le_self (b := 2) (by norm_num) hx
  have h2 := Int.lt_zpow_succ_log_self (b := 2) (by norm_num) x
  simp only [Nat.cast_ofNat] at h1 h2
  exact ⟨h1, h2⟩

theorem log_eq (x : ℚ) (L : ℤ) (hx : 0 < x) (h1 : (2 : ℚ) ^ L ≤ x) (h2 : x < (2 : ℚ) ^ (L + 1)) :
    Int.log 2 x = L := by
  have a := (Int.zpow_le_iff_le_log (b := 2) (by norm_num) hx).1 (by simpa using h1)
  have b := (Int.lt_zpow_iff_log_lt (b := 2) (by norm_num) hx).1 (by simpa using h2)
  omega

theorem two_zpow_split (e E : ℤ) (h : e ≤ E) :
    (2 : ℚ) ^ E = ((2 ^ (E - e).toNat : ℕ) : ℚ) * 2 ^ e := by
  have h1 : E = ((E - e).toNat : ℤ) + e := by
    rw [Int.toNat_of_nonneg (by omega)]; ring
  conv_lhs => rw [h1]
  rw [zpow_add₀ (by norm_num), zpow_natCast]
  push_cast
  rfl

theorem grid (B : ℚ) (hB : Representable B) (e : ℤ)
    (he : e = -1074 ∨ (2 : ℚ) ^ (e + 52) ≤ B) : ∃ n : ℕ, B = (n : ℚ) * 2 ^ e := by
  obtain ⟨M, E, hM, hE1, hE2, rfl⟩ := hB
  have heE : e ≤ E := by
    rcases he with rfl | h
    · exact hE1
    · have hlt : (2 : ℚ) ^ (e + 52) < 2 ^ (E + 53) := by
        calc (2 : ℚ) ^ (e + 52) ≤ (M : ℚ) * 2 ^ E := h
          _ < 2 ^ (53 : ℕ) * 2 ^ E := by
              apply mul_lt_mul_of_pos_right _ (two_zpow_pos E)
              exact_mod_cast hM
          _ = 2 ^ (E + 53) := by
              rw [zpow_add₀ (by norm_num), mul_comm]
              norm_cast
      have := (zpow_lt_zpow_iff_right₀ (by norm_num : (1 : ℚ) < 2)).1 hlt
      omega
  refine ⟨M * 2 ^ (E - e).toNat, ?_⟩
  rw [two_zpow_split e E heE]
  push_cast
  ring

theorem ulpExp_cases (x : ℚ) (hx : 0 < x) :
    ulpExp x = -1074 ∨ (2 : ℚ) ^ (ulpExp x + 52) ≤ x := by
  unfold ulpExp
  rcases le_total (Int.log 2 x - 52) (-1074) with h | h
  · left; exact max_eq_right h
  · right
    rw [max_eq_left h, sub_add_cancel]
    exact (log_bounds x hx).1

theorem roundMag_le (x B : ℚ) (hx : 0 < x) (hxB : x ≤ B) (hB : Representable B) :
    roundMag x ≤ B := by
  obtain ⟨n, hn⟩ := grid B hB (ulpExp x) (by
    rcases ulpExp_cases x hx with h | h
    · exact Or.inl h
    · exact Or.inr (le_trans h hxB))
  have hpos := two_zpow_pos (ulpExp x)
  have hq : x / 2 ^ ulpExp x ≤ ((n : ℤ) : ℚ) := by
    rw [div_le_iff₀ hpos]
    push_cast
    rw [← hn]
    exact hxB
  have hr := roundHalfEven_le _ _ hq
  unfold roundMag
  calc (roundHalfEven (x / 2 ^ ulpExp x) : ℚ) * 2 ^ ulpExp x
      ≤ ((n : ℤ) : ℚ) * 2 ^ ulpExp x :=
        mul_le_mul_of_nonneg_right (by exact_mod_cast hr) hpos.le
    _ = B := by push_cast; exact hn.symm

theorem roundMag_nonneg (x : ℚ) (hx : 0 < x) : 0 ≤ roundMag x := by
  have hpos := two_zpow_pos (ulpExp x)
  have h := le_roundHalfEven (x / 2 ^ ulpExp x) 0 (by
    simp only [Int.cast_zero]
    exact div_nonneg hx.le hpos.le)
  unfold roundMag
  exact mul_nonneg (by exact_mod_cast h) hpos.le

theorem roundMag_repr (x : ℚ) (hx : 0 < x) (h : Representable x) : roundMag x = x := by
  obtain ⟨n, hn⟩ := grid x h (ulpExp x) (ulpExp_cases x hx)
  have hpos := two_zpow_pos (ulpExp x)
  have hq : x / 2 ^ ulpExp x = ((n : ℤ) : ℚ) := by
    rw [div_eq_iff hpos.ne']
    push_cast
    exact hn
  unfold roundMag
  rw [hq, roundHalfEven_intCast]
  push_cast
  exact hn.symm

theorem repr_lt (B : ℚ) (h : Representable B) : B < 2 ^ 1024 := by
  obtain ⟨M, E, hM, _, hE2, rfl⟩ := h
  have h1 : (2 : ℚ) ^ E ≤ 2 ^ (971 : ℤ) := zpow_le_zpow_right₀ (by norm_num) hE2
  have h2 : (M : ℚ) < 2 ^ 53 := by exact_mod_cast hM
  calc (M : ℚ) * 2 ^ E ≤ M * 2 ^ (971 : ℤ) :=
        mul_le_mul_of_nonneg_left h1 (Nat.cast_nonneg M)
    _ < 2 ^ 53 * 2 ^ (971 : ℤ) := mul_lt_mul_of_pos_right h2 (two_zpow_pos 971)
    _ = 2 ^ 1024 := by
        rw [show (971 : ℤ) = ((971 : ℕ) : ℤ) from rfl, zpow_natCast, ← pow_add]

theorem repr_nonneg (B : ℚ) (h : Representable B) : 0 ≤ B := by
  obtain ⟨M, E, _, _, _, rfl⟩ := h
  exact mul_nonneg (Nat.cast_nonneg M) (two_zpow_pos E).le

theorem round_pos_le (x B : ℚ) (hx : 0 < x) (hxB : x ≤ B) (hB : Representable B) :
    F64.round x = .finite (roundMag x) ∧ 0 ≤ roundMag x ∧ roundMag x ≤ B := by
  have h1 := roundMag_le x B hx hxB hB
  have h2 := repr_lt B hB
  refine ⟨?_, roundMag_nonneg x hx, h1⟩
  unfold F64.round
  rw [if_neg hx.ne', if_pos hx, if_pos (lt_of_le_of_lt h1 h2)]

theorem round_neg_le (x B : ℚ) (hx : x < 0) (hxB : -x ≤ B) (hB : Representable B) :
    F64.round x = .finite (-roundMag (-x)) ∧ 0 ≤ roundMag (-x) ∧ roundMag (-x) ≤ B := by
  have hx' : 0 < -x := by linarith
  have h1 := roundMag_le (-x) B hx' hxB hB
  have h2 := repr_lt B hB
  refine ⟨?_, roundMag_nonneg (-x) hx', h1⟩
  unfold F64.round
  rw [if_neg hx.ne, if_neg (not_lt.2 hx.le), if_pos (lt_of_le_of_lt h1 h2)]

theorem round_abs_le (x B : ℚ) (h : |x| ≤ B) (hB : Representable B) :
    ∃ y, F64.round x = .finite y ∧ |y| ≤ B ∧ (0 ≤ x → 0 ≤ y) := by
  rcases lt_trichotomy x 0 with hx | hx | hx
  · obtain ⟨h1, h2, h3⟩ := round_neg_le x B hx (by rw [abs_of_neg hx] at h; exact h) hB
    refine ⟨_, h1, by rw [abs_neg, abs_of_nonneg h2]; exact h3, fun h0 => absurd hx (not_lt.2 h0)⟩
  · subst hx
    refine ⟨0, by simp [F64.round], by simpa using repr_nonneg B hB, fun _ => le_refl _⟩
  · obtain ⟨h1, h2, h3⟩ := round_pos_le x B hx (by rw [abs_of_pos hx] at h; exact h) hB
    exact ⟨_, h1, by rw [abs_of_nonneg h2]; exact h3, fun _ => h2⟩

theorem round_repr (x : ℚ) (h : Representable |x|) : F64.round x = .finite x := by
  rcases lt_trichotomy x 0 with hx | hx | hx
  · rw [abs_of_neg hx] at h
    obtain ⟨h1, _, _⟩ := round_neg_le x (-x) hx (le_refl _) h
    rw [h1, roundMag_repr (-x) (by linarith) h, neg_neg]
  · subst hx
    simp [F64.round]
  · rw [abs_of_pos hx] at h
    obtain ⟨h1, _, _⟩ := round_pos_le x x hx (le_refl _) h
    rw [h1, roundMag_repr x hx h]

theorem ulpExp_eq (x : ℚ) (L : ℤ) (hx : 0 < x) (h1 : (2 : ℚ) ^ L ≤ x)
    (h2 : x < (2 : ℚ) ^ (L + 1)) : ulpExp x = max (L - 52) (-1074) := by
  unfold ulpExp
  rw [log_eq x L hx h1 h2]

theorem round_up (x : ℚ) (L n e : ℤ) (hx : 0 < x) (h1 : (2 : ℚ) ^ L ≤ x)
    (h2 : x < (2 : ℚ) ^ (L + 1)) (he : e = max (L - 52) (-1074))
    (h3 : ((n : ℚ) + 1 / 2) * 2 ^ e < x) (h4 : x < ((n : ℚ) + 1) * 2 ^ e)
    (h5 : ((n : ℚ) + 1) * 2 ^ e < 2 ^ 1024) :
    F64.round x = .finite (((n : ℚ) + 1) * 2 ^ e) := by
  have hpos := two_zpow_pos e
  have hu : ulpExp x = e := by rw [he]; exact ulpExp_eq x L hx h1 h2
  have hm : roundMag x = ((n : ℚ) + 1) * 2 ^ e := by
    unfold roundMag
    rw [hu, roundHalfEven_up _ n ((lt_div_iff₀ hpos).2 h3) ((div_lt_iff₀ hpos).2 h4)]
    push_cast
    rfl
  unfold F64.round
  rw [if_neg hx.ne', if_pos hx, hm, if_pos h5]


theorem sqrtNearest_le (q : ℚ) (n : ℕ) (hq0 : 0 ≤ q) (h : q ≤ (n : ℚ) ^ 2) :
    sqrtNearest q ≤ n := by
  have hfl : ⌊q⌋₊ ≤ n ^ 2 := by
    have := le_trans (Nat.floor_le hq0) h
    exact_mod_cast this
  have hm : Nat.sqrt ⌊q⌋₊ ≤ n := by
    have := Nat.sqrt_le_sqrt hfl
    rwa [Nat.sqrt_eq'] at this
  have hstep : ¬ q < (Nat.sqrt ⌊q⌋₊ : ℚ) ^ 2 + Nat.sqrt ⌊q⌋₊ + 1 / 4 →
      Nat.sqrt ⌊q⌋₊ + 1 ≤ n := by
    intro hc
    by_contra hcon
    have hnm : (n : ℚ) ≤ (Nat.sqrt ⌊q⌋₊ : ℚ) := by
      have : n ≤ Nat.sqrt ⌊q⌋₊ := by omega
      exact_mod_cast this
    have hn0 : (0 : ℚ) ≤ n := Nat.cast_nonneg n
    have : (n : ℚ) ^ 2 ≤ (Nat.sqrt ⌊q⌋₊ : ℚ) ^ 2 := by nlinarith
    have hm0 : (0 : ℚ) ≤ (Nat.sqrt ⌊q⌋₊ : ℚ) := Nat.cast_nonneg _
    linarith [not_lt.1 hc]
  simp only [sqrtNearest]
  split_ifs with a b c
  · exact hm
  · exact hstep a
  · exact hm
  · exact hstep a

theorem le_sqrtNearest (q : ℚ) (n : ℕ) (h : (n : ℚ) ^ 2 ≤ q) : n ≤ sqrtNearest q := by
  have hfl : n * n ≤ ⌊q⌋₊ := by
    apply Nat.le_floor
    push_cast
    rw [← pow_two]
    exact h
  have hm : n ≤ Nat.sqrt ⌊q⌋₊ := Nat.le_sqrt.2 hfl
  simp only [sqrtNearest]
  split_ifs <;> omega

theorem sqrt_exp_bounds (x : ℚ) (hx : 0 < x) :
    (2 : ℚ) ^ (2 * (Int.log 2 x / 2 - 52) + 104) ≤ x ∧
    x < (2 : ℚ) ^ (2 * (Int.log 2 x / 2 - 52) + 106) := by
  obtain ⟨h1, h2⟩ := log_bounds x hx
  constructor
  · exact le_trans (zpow_le_zpow_right₀ (by norm_num) (by omega)) h1
  · exact lt_of_lt_of_le h2 (zpow_le_zpow_right₀ (by norm_num) (by omega))

theorem sq_two_zpow (e : ℤ) : ((2 : ℚ) ^ e) ^ 2 = 2 ^ (2 * e) := by
  rw [pow_two, ← zpow_add₀ (by norm_num)]
  congr 1
  ring

theorem sqrtMag_le (x B : ℚ) (hx : 0 < x) (hB : Representable B) (h : x ≤ B ^ 2) :
    sqrtMag x ≤ B := by
  obtain ⟨h1, _⟩ := sqrt_exp_bounds x hx
  generalize he : Int.log 2 x / 2 - 52 = e at h1
  have hpos := two_zpow_pos e
  have hB0 := repr_nonneg B hB
  have hge : (2 : ℚ) ^ (e + 52) ≤ B := by
    have hsq : ((2 : ℚ) ^ (e + 52)) ^ 2 ≤ B ^ 2 := by
      rw [sq_two_zpow]
      have : 2 * (e + 52) = 2 * e + 104 := by ring
      rw [this]
      exact le_trans h1 h
    exact (pow_le_pow_iff_left₀ (two_zpow_pos _).le hB0 (by norm_num)).1 hsq
  obtain ⟨n, hn⟩ := grid B hB e (Or.inr hge)
  have hq : x / 2 ^ (2 * e) ≤ (n : ℚ) ^ 2 := by
    rw [div_le_iff₀ (two_zpow_pos _), ← sq_two_zpow, ← mul_pow, ← hn]
    exact h
  have hres := sqrtNearest_le (x / 2 ^ (2 * e)) n (div_nonneg hx.le (two_zpow_pos _).le) hq
  unfold sqrtMag
  rw [he, hn]
  exact mul_le_mul_of_nonneg_right (by exact_mod_cast hres) hpos.le

theorem sqrtMag_ge (x B : ℚ) (hx : 0 < x) (hB : Representable B) (h : B ^ 2 ≤ x) :
    B ≤ sqrtMag x := by
  obtain ⟨h1, _⟩ := sqrt_exp_bounds x hx
  generalize he : Int.log 2 x / 2 - 52 = e at h1
  have hpos := two_zpow_pos e
  have hB0 := repr_nonneg B hB
  rcases lt_or_le B ((2 : ℚ) ^ (e + 52)) with hlt | hge
  · have hq : (((2 ^ 52 : ℕ) : ℚ)) ^ 2 ≤ x / 2 ^ (2 * e) := by
      rw [le_div_iff₀ (two_zpow_pos _)]
      have : (((2 ^ 52 : ℕ) : ℚ)) ^ 2 * 2 ^ (2 * e) = 2 ^ (2 * e + 104) := by
        rw [zpow_add₀ (by norm_num), mul_comm]
        norm_num
      rw [this]
      exact h1
    have hres := le_sqrtNearest _ _ hq
    unfold sqrtMag
    rw [he]
    have h2 : (2 : ℚ) ^ (e + 52) = ((2 ^ 52 : ℕ) : ℚ) * 2 ^ e := by
      rw [zpow_add₀ (by norm_num), mul_comm]
      norm_num
    calc B ≤ (2 : ℚ) ^ (e + 52) := hlt.le
      _ = ((2 ^ 52 : ℕ) : ℚ) * 2 ^ e := h2
      _ ≤ _ := mul_le_mul_of_nonneg_right (by exact_mod_cast hres) hpos.le
  · obtain ⟨n, hn⟩ := grid B hB e (Or.inr hge)
    have hq : (n : ℚ) ^ 2 ≤ x / 2 ^ (2 * e) := by
      rw [le_div_iff₀ (two_zpow_pos _), ← sq_two_zpow, ← mul_pow, ← hn]
      exact h
    have hres := le_sqrtNearest _ _ hq
    unfold sqrtMag
    rw [he, hn]
    exact mul_le_mul_of_nonneg_right (by exact_mod_cast hres) hpos.le

theorem sqrtMag_nonneg (x : ℚ) : 0 ≤ sqrtMag x := by
  unfold sqrtMag
  exact mul_nonneg (Nat.cast_nonneg _) (two_zpow_pos _).le

theorem sqrtMag_sq (y : ℚ) (hy : 0 < y) (h : Representable y) : sqrtMag (y ^ 2) = y :=
  le_antisymm (sqrtMag_le _ _ (by positivity) h (le_refl _))
    (sqrtMag_ge _ _ (by positivity) h (le_refl _))

theorem repr_nat (n : ℕ) (h : n < 2 ^ 53) : Representable (n : ℚ) :=
  ⟨n, 0, h, by norm_num, by norm_num, by simp⟩

/-- The square root of a finite non-negative value of at most `hi²` is finite,
non-negative and at most `hi`. -/
theorem fsqrt_le (u hi : ℚ) (hu : 0 ≤ u) (hhi : Representable hi) (h : u ≤ hi ^ 2) :
    ∃ v, F64.sqrt (.finite u) = .finite v ∧ 0 ≤ v ∧ v ≤ hi := by
  rcases eq_or_lt_of_le hu with h0 | hpos
  · subst h0
    exact ⟨0, by simp [F64.sqrt], le_refl _, repr_nonneg hi hhi⟩
  · refine ⟨sqrtMag u, ?_, sqrtMag_nonneg u, sqrtMag_le u hi hpos hhi h⟩
    simp only [F64.sqrt, if_neg (not_lt.2 hu), if_neg hpos.ne']

theorem fsqrt_ge (u lo : ℚ) (hu : 0 < u) (hlo : Representable lo) (h : lo ^ 2 ≤ u) :
    F64.sqrt (.finite u) = .finite (sqrtMag u) ∧ lo ≤ sqrtMag u := by
  refine ⟨?_, sqrtMag_ge u lo hu hlo h⟩
  simp only [F64.sqrt, if_neg (not_lt.2 hu.le), if_neg hu.ne']

theorem fsqrt_pos (u : ℚ) (hu : 0 < u) : F64.sqrt (.finite u) = .finite (sqrtMag u) := by
  simp only [F64.sqrt, if_neg (not_lt.2 hu.le), if_neg hu.ne']

/-- Rounding a rational that is an integer below `2^53` in magnitude is exact. -/
theorem round_eq (x y : ℚ) (n : ℕ) (hxy : x = y) (hy : |y| = n) (hn : n < 2 ^ 53) :
    F64.round x = .finite y := by
  rw [hxy]
  exact round_repr y (by rw [hy]; exact repr_nat n hn)

theorem repr_ofNat (x : ℚ) (n : ℕ) (hx : x = n) (hn : n < 2 ^ 53) : Representable x := by
  rw [hx]
  exact repr_nat n hn

theorem round_inRange (x : ℚ) (h0 : 0 ≤ x) (h1 : x ≤ 65535) : (F64.round x).InRange := by
  obtain ⟨y, hy, hb, hpos⟩ := round_abs_le x 65535 (by rw [abs_of_nonneg h0]; exact h1)
    (repr_ofNat 65535 65535 (by norm_num) (by norm_num))
  rw [hy]
  exact ⟨hpos h0, (abs_le.1 hb).2⟩

theorem inRange_iff (x : F64) : x.InRange ↔ ∃ q, x = .finite q ∧ 0 ≤ q ∧ q ≤ 65535 := by
  cases x <;> simp [F64.InRange]

/-! ### Lemmas on the lookup loop -/

theorem fsub_finite (a b : ℚ) : F64.sub (.finite a) (.finite b) = F64.round (a - b) := by
  simp only [F64.sub, F64.neg, F64.add, sub_eq_add_neg]

/-- The function `distance` step by step: three differences, three squares, two sums
and the square root, each rounded. -/
theorem distance_eval (a0 a1 a2 b0 b1 b2 d0 d1 d2 s0 s1 s2 t u : ℚ)
    (h0 : F64.round (a0 - b0) = .finite d0) (h1 : F64.round (a1 - b1) = .finite d1)
    (h2 : F64.round (a2 - b2) = .finite d2)
    (k0 : F64.round (d0 * d0) = .finite s0) (k1 : F64.round (d1 * d1) = .finite s1)
    (k2 : F64.round (d2 * d2) = .finite s2)
    (ht : F64.round (s0 + s1) = .finite t) (hu : F64.round (t + s2) = .finite u) :
    distance ⟨.finite a0, .finite a1, .finite a2⟩ ⟨.finite b0, .finite b1, .finite b2⟩
      = F64.sqrt (.finite u) := by
  simp only [distance, square, fsub_finite, h0, h1, h2, F64.mul, k0, k1, k2, F64.add, ht, hu]

/-- Between two colours on the 16-bit scale the computed distance is finite,
non-negative and at most 113512, far below the initial bound `1e9`. -/
theorem distance_inRange (a b : Color3) (ha : a.InRange) (hb : b.InRange) :
    ∃ v, distance a b = .finite v ∧ 0 ≤ v ∧ v ≤ 113512 := by
  obtain ⟨a0, a1, a2⟩ := a
  obtain ⟨b0, b1, b2⟩ := b
  obtain ⟨ha0, ha1, ha2⟩ := ha
  obtain ⟨hb0, hb1, hb2⟩ := hb
  obtain ⟨p0, rfl, p0l, p0u⟩ := (inRange_iff _).1 ha0
  obtain ⟨p1, rfl, p1l, p1u⟩ := (inRange_iff _).1 ha1
  obtain ⟨p2, rfl, p2l, p2u⟩ := (inRange_iff _).1 ha2
  obtain ⟨q0, rfl, q0l, q0u⟩ := (inRange_iff _).1 hb0
  obtain ⟨q1, rfl, q1l, q1u⟩ := (inRange_iff _).1 hb1
  obtain ⟨q2, rfl, q2l, q2u⟩ := (inRange_iff _).1 hb2
  have r1 : Representable (65535 : ℚ) := repr_ofNat _ 65535 (by norm_num) (by norm_num)
  have r2 : Representable (4294836225 : ℚ) := repr_ofNat _ 4294836225 (by norm_num) (by norm_num)
  have r3 : Representable (8589672450 : ℚ) := repr_ofNat _ 8589672450 (by norm_num) (by norm_num)
  have r4 : Representable (12884508675 : ℚ) :=
    repr_ofNat _ 12884508675 (by norm_num) (by norm_num)
  have r5 : Representable (113512 : ℚ) := repr_ofNat _ 113512 (by norm_num) (by norm_num)
  have key_sub : ∀ p q : ℚ, 0 ≤ p → p ≤ 65535 → 0 ≤ q → q ≤ 65535 →
      ∃ d, F64.round (p - q) = .finite d ∧ |d| ≤ 65535 := by
    intro p q hp hp' hq hq'
    obtain ⟨y, hy, hb, _⟩ := round_abs_le (p - q) 65535 (by rw [abs_le]; constructor <;> linarith) r1
    exact ⟨y, hy, hb⟩
  have key_sq : ∀ d : ℚ, |d| ≤ 65535 →
      ∃ s, F64.round (d * d) = .finite s ∧ 0 ≤ s ∧ s ≤ 4294836225 := by
    intro d hd
    have h1 : 0 ≤ d * d := mul_self_nonneg d
    have h2 : d * d ≤ 4294836225 := by
      have := mul_le_mul hd hd (abs_nonneg _) (by norm_num : (0 : ℚ) ≤ 65535)
      rw [abs_mul_abs_self] at this
      linarith
    obtain ⟨y, hy, hb, hpos⟩ := round_abs_le (d * d) 4294836225
      (by rw [abs_of_nonneg h1]; exact h2) r2
    exact ⟨y, hy, hpos h1, (abs_le.1 hb).2⟩
  obtain ⟨d0, hd0, hd0'⟩ := key_sub p0 q0 p0l p0u q0l q0u
  obtain ⟨d1, hd1, hd1'⟩ := key_sub p1 q1 p1l p1u q1l q1u
  obtain ⟨d2, hd2, hd2'⟩ := key_sub p2 q2 p2l p2u q2l q2u
  obtain ⟨s0, hs0, s0l, s0u⟩ := key_sq d0 hd0'
  obtain ⟨s1, hs1, s1l, s1u⟩ := key_sq d1 hd1'
  obtain ⟨s2, hs2, s2l, s2u⟩ := key_sq d2 hd2'
  obtain ⟨t, ht, htb, htpos⟩ := round_abs_le (s0 + s1) 8589672450
    (by rw [abs_of_nonneg (by linarith)]; linarith) r3
  have ht0 : 0 ≤ t := htpos (by linarith)
  have ht1 : t ≤ 8589672450 := (abs_le.1 htb).2
  obtain ⟨u, hu, hub, hupos⟩ := round_abs_le (t + s2) 12884508675
    (by rw [abs_of_nonneg (by linarith)]; linarith) r4
  have hu0 : 0 ≤ u := hupos (by linarith)
  have hu1 : u ≤ 12884508675 := (abs_le.1 hub).2
  rw [distance_eval p0 p1 p2 q0 q1 q2 d0 d1 d2 s0 s1 s2 t u hd0 hd1 hd2 hs0 hs1 hs2 ht hu]
  exact fsqrt_le u 113512 hu0 r5 (by norm_num; linarith)

theorem nearestStep_ge (target : Color3) (st : String × F64) (kv : String × Color3)
    (v s : ℚ) (hd : distance target kv.2 = .finite v) (hs : st.2 = .finite s) (h : s ≤ v) :
    nearestStep target st kv = st := by
  simp only [nearestStep, hd, hs, F64.lt, not_lt.2 h, decide_False, Bool.false_eq_true,
    if_false]

/-- C2 fails as stated: a single black tile queried with the colour
`(1e9, 0, 0)` lies at computed distance exactly `1e9`, which is not below the
initial bound, so the lookup returns the empty identifier and not the tile. -/
theorem getNearestTile_single_far :
    getNearestTile [("tiles/a.png", ⟨.finite 0, .finite 0, .finite 0⟩)]
      ⟨.finite 1000000000, .finite 0, .finite 0⟩ = "" ∧
    getNearestTile [("tiles/a.png", ⟨.finite 0, .finite 0, .finite 0⟩)]
      ⟨.finite 1000000000, .finite 0, .finite 0⟩ ≠ "tiles/a.png" := by
  have z : F64.round (0 - 0) = .finite 0 := round_eq _ _ 0 (by norm_num) (by norm_num) (by norm_num)
  have zz : F64.round (0 * 0) = .finite 0 := round_eq _ _ 0 (by norm_num) (by norm_num) (by norm_num)
  have s : F64.round (1000000000 - 0) = .finite 1000000000 :=
    round_eq _ _ 1000000000 (by norm_num) (by norm_num) (by norm_num)
  have q : F64.round (1000000000 * 1000000000) = .finite 1000000000000000000 := by
    rw [show (1000000000 * 1000000000 : ℚ) = 1000000000000000000 by norm_num]
    exact round_repr _ ⟨3814697265625, 18, by norm_num, by norm_num, by norm_num, by norm_num⟩
  have t : F64.round (1000000000000000000 + 0) = .finite 1000000000000000000 := by
    rw [show (1000000000000000000 + 0 : ℚ) = 1000000000000000000 by norm_num]
    exact round_repr _ ⟨3814697265625, 18, by norm_num, by norm_num, by norm_num, by norm_num⟩
  have root : F64.sqrt (.finite 1000000000000000000) = .finite 1000000000 := by
    have h := sqrtMag_sq 1000000000 (by norm_num)
      (repr_ofNat _ 1000000000 (by norm_num) (by norm_num))
    rw [show (1000000000 : ℚ) ^ 2 = 1000000000000000000 by norm_num] at h
    rw [fsqrt_pos _ (by norm_num), h]
  have d : distance ⟨.finite 1000000000, .finite 0, .finite 0⟩
      ⟨.finite 0, .finite 0, .finite 0⟩ = .finite 1000000000 := by
    rw [distance_eval 1000000000 0 0 0 0 0 _ _ _ _ _ _ _ _ s z z q zz zz t t]
    exact root
  have h : getNearestTile [("tiles/a.png", ⟨.finite 0, .finite 0, .finite 0⟩)]
      ⟨.finite 1000000000, .finite 0, .finite 0⟩ = "" := by
    rw [getNearestTile, List.foldl_cons,
      nearestStep_ge _ ("", smallestInit) ("tiles/a.png", _) 1000000000 1000000000 d rfl
        (le_refl _),
      List.foldl_nil]
  exact ⟨h, by rw [h]; decide⟩

/-- C2 (amended): over a snapshot with exactly one entry, `getNearestTile` returns
that entry's identifier for every query colour whose computed `float64` distance
to the entry's colour is below the initial bound `1e9`; in particular whenever
all channels of both colours lie in `[0, 65535]`. -/
theorem getNearestTile_single (k : String) (c target : Color3) :
    (F64.lt (distance target c) (.finite 1000000000) = true →
      getNearestTile [(k, c)] target = k) ∧
    (c.InRange → target.InRange → getNearestTile [(k, c)] target = k) := by
  have step : F64.lt (distance target c) (.finite 1000000000) = true →
      getNearestTile [(k, c)] target = k := by
    intro h
    rw [getNearestTile, List.foldl_cons, List.foldl_nil]
    simp only [nearestStep, smallestInit, h, if_true]
  refine ⟨step, ?_⟩
  intro hc ht
  apply step
  obtain ⟨v, hv, _, hv1⟩ := distance_inRange target c ht hc
  rw [hv]
  simp only [F64.lt, decide_eq_true_eq]
  linarith

/-- Witness for C2 (amended): one grey tile, queried with white. -/
theorem getNearestTile_single_witness :
    getNearestTile [("tiles/grey.png", ⟨.finite 32768, .finite 32768, .finite 32768⟩)]
      ⟨.finite 65535, .finite 65535, .finite 65535⟩ = "tiles/grey.png" :=
  (getNearestTile_single "tiles/grey.png" ⟨.finite 32768, .finite 32768, .finite 32768⟩
    ⟨.finite 65535, .finite 65535, .finite 65535⟩).2
    (by norm_num [Color3.InRange, F64.InRange]) (by norm_num [Color3.InRange, F64.InRange])

/-! ### Claim on the partition -/

theorem tdiv_two (a : Int) (h : 0 ≤ a) : Int.tdiv a 2 = a / 2 :=
  Int.tdiv_eq_ediv h (by decide)

/-- C3: for a source image with bounds `(0,0)-(W,H)` the four rectangles passed to
`cut` are `(0,0,W/2,H/2)`, `(W/2,0,W,H/2)`, `(0,H/2,W/2,H)` and `(W/2,H/2,W,H)`; a
pixel lies in the source rectangle exactly when it lies in one of them, no pixel
lies in two of them, and their areas sum to `W×H`, for even and odd `W` and `H`;
when `W` (or `H`) is odd the right (or bottom) quadrants are one pixel wider (or
higher) than the left (or top) ones. -/
theorem quadrant_partition (W H : Int) (hW : 0 ≤ W) (hH : 0 ≤ H) :
    (quadrant ⟨⟨0, 0⟩, ⟨W, H⟩⟩ 0 = ⟨0, 0, W / 2, H / 2⟩ ∧
      quadrant ⟨⟨0, 0⟩, ⟨W, H⟩⟩ 1 = ⟨W / 2, 0, W, H / 2⟩ ∧
      quadrant ⟨⟨0, 0⟩, ⟨W, H⟩⟩ 2 = ⟨0, H / 2, W / 2, H⟩ ∧
      quadrant ⟨⟨0, 0⟩, ⟨W, H⟩⟩ 3 = ⟨W / 2, H / 2, W, H⟩) ∧
    (∀ x y : Int, (0 ≤ x ∧ x < W ∧ 0 ≤ y ∧ y < H) ↔
      ∃ i, (quadrant ⟨⟨0, 0⟩, ⟨W, H⟩⟩ i).Covers x y) ∧
    (∀ (i j : Fin 4) (x y : Int), (quadrant ⟨⟨0, 0⟩, ⟨W, H⟩⟩ i).Covers x y →
      (quadrant ⟨⟨0, 0⟩, ⟨W, H⟩⟩ j).Covers x y → i = j) ∧
    ((quadrant ⟨⟨0, 0⟩, ⟨W, H⟩⟩ 0).area + (quadrant ⟨⟨0, 0⟩, ⟨W, H⟩⟩ 1).area
      + (quadrant ⟨⟨0, 0⟩, ⟨W, H⟩⟩ 2).area + (quadrant ⟨⟨0, 0⟩, ⟨W, H⟩⟩ 3).area = W * H) ∧
    (W % 2 = 1 → ∀ i : Fin 4, (i = 1 ∨ i = 3) →
      (quadrant ⟨⟨0, 0⟩, ⟨W, H⟩⟩ i).x2 - (quadrant ⟨⟨0, 0⟩, ⟨W, H⟩⟩ i).x1
        = ((quadrant ⟨⟨0, 0⟩, ⟨W, H⟩⟩ 0).x2 - (quadrant ⟨⟨0, 0⟩, ⟨W, H⟩⟩ 0).x1) + 1) ∧
    (H % 2 = 1 → ∀ i : Fin 4, (i = 2 ∨ i = 3) →
      (quadrant ⟨⟨0, 0⟩, ⟨W, H⟩⟩ i).y2 - (quadrant ⟨⟨0, 0⟩, ⟨W, H⟩⟩ i).y1
        = ((quadrant ⟨⟨0, 0⟩, ⟨W, H⟩⟩ 0).y2 - (quadrant ⟨⟨0, 0⟩, ⟨W, H⟩⟩ 0).y1) + 1) := by
  have eW := tdiv_two W hW
  have eH := tdiv_two H hH
  have q0 : quadrant ⟨⟨0, 0⟩, ⟨W, H⟩⟩ 0 = ⟨0, 0, W / 2, H / 2⟩ := by
    simp only [quadrant, eW, eH]
  have q1 : quadrant ⟨⟨0, 0⟩, ⟨W, H⟩⟩ 1 = ⟨W / 2, 0, W, H / 2⟩ := by
    simp only [quadrant, eW, eH]
  have q2 : quadrant ⟨⟨0, 0⟩, ⟨W, H⟩⟩ 2 = ⟨0, H / 2, W / 2, H⟩ := by
    simp only [quadrant, eW, eH]
  have q3 : quadrant ⟨⟨0, 0⟩, ⟨W, H⟩⟩ 3 = ⟨W / 2, H / 2, W, H⟩ := by
    simp only [quadrant, eW, eH]
  refine ⟨⟨q0, q1, q2, q3⟩, ?_, ?_, ?_, ?_, ?_⟩
  · intro x y
    constructor
    · rintro ⟨hx0, hx1, hy0, hy1⟩
      by_cases hx : x < W / 2 <;> by_cases hy : y < H / 2
      · exact ⟨0, by rw [q0]; simp only [Region.Covers]; omega⟩
      · exact ⟨2, by rw [q2]; simp only [Region.Covers]; omega⟩
      · exact ⟨1, by rw [q1]; simp only [Region.Covers]; omega⟩
      · exact ⟨3, by rw [q3]; simp only [Region.Covers]; omega⟩
    · rintro ⟨i, hi⟩
      fin_cases i
      · simp only [Fin.zero_eta, q0, Region.Covers] at hi; omega
      · simp only [Fin.mk_one, q1, Region.Covers] at hi; omega
      · have hi' : (quadrant ⟨⟨0, 0⟩, ⟨W, H⟩⟩ 2).Covers x y := hi
        simp only [q2, Region.Covers] at hi'; omega
      · have hi' : (quadrant ⟨⟨0, 0⟩, ⟨W, H⟩⟩ 3).Covers x y := hi
        simp only [q3, Region.Covers] at hi'; omega
  · intro i j x y hi hj
    fin_cases i <;> fin_cases j <;>
      first
        | rfl
        | (exfalso
           simp only [Fin.zero_eta, Fin.mk_one, Fin.reduceFinMk, q0, q1, q2, q3,
             Region.Covers] at hi hj
           omega)
  · rw [q0, q1, q2, q3]
    simp only [Region.area]
    ring
  · intro hodd i hi
    rcases hi with rfl | rfl
    · rw [q0, q1]; simp only; omega
    · rw [q0, q3]; simp only; omega
  · intro hodd i hi
    rcases hi with rfl | rfl
    · rw [q0, q2]; simp only; omega
    · rw [q0, q3]; simp only; omega

/-- Witness for C3: a 5×3 source image, both dimensions odd. -/
theorem quadrant_partition_witness :
    (quadrant ⟨⟨0, 0⟩, ⟨5, 3⟩⟩ 0).area + (quadrant ⟨⟨0, 0⟩, ⟨5, 3⟩⟩ 1).area
      + (quadrant ⟨⟨0, 0⟩, ⟨5, 3⟩⟩ 2).area + (quadrant ⟨⟨0, 0⟩, ⟨5, 3⟩⟩ 3).area = 5 * 3 :=
  (quadrant_partition 5 3 (by decide) (by decide)).2.2.2.1

/-! ### Loops -/

/-- A loop whose body finishes, keeps an invariant and decreases a measure
finishes within as many iterations as the measure allows, in a state that
satisfies the invariant at a loop variable that fails the loop condition. -/
theorem forLoop_finished {ι σ : Type} (cond : ι → Bool) (post : ι → ι)
    (body : ι → σ → Outcome σ) (Inv : ι → σ → Prop) (m : ι → Nat)
    (hbody : ∀ i s, cond i = true → Inv i s →
      ∃ s', body i s = .finished s' ∧ Inv (post i) s' ∧ m (post i) < m i) :
    ∀ (fuel : Nat) (i : ι) (s : σ), m i ≤ fuel → Inv i s →
      ∃ i' s', forLoop cond post body fuel i s = .finished s' ∧ Inv i' s' ∧ cond i' = false := by
  intro fuel
  induction fuel with
  | zero =>
    intro i s hm hinv
    by_cases hc : cond i = true
    · obtain ⟨s', _, _, hlt⟩ := hbody i s hc hinv
      omega
    · refine ⟨i, s, ?_, hinv, by simpa using hc⟩
      simp [forLoop, hc]
  | succ fuel ih =>
    intro i s hm hinv
    by_cases hc : cond i = true
    · obtain ⟨s', hb, hinv', hlt⟩ := hbody i s hc hinv
      obtain ⟨i', s'', hrun, hI, hC⟩ := ih (post i) s' (by omega) hinv'
      refine ⟨i', s'', ?_, hI, hC⟩
      simp only [forLoop, hc, if_true, hb]
      exact hrun
    · refine ⟨i, s, ?_, hinv, by simpa using hc⟩
      simp [forLoop, hc]

/-! ### `resize` -/

theorem has_iff (r : Rectangle) (x y : Int) :
    r.Has x y = true ↔ r.Min.X ≤ x ∧ x < r.Max.X ∧ r.Min.Y ≤ y ∧ y < r.Max.Y := by
  simp [Rectangle.Has, and_assoc]

theorem setNRGBA_rect (p : NRGBAImage) (x y : Int) (c : NRGBA) :
    (p.SetNRGBA x y c).Rect = p.Rect := by
  unfold NRGBAImage.SetNRGBA
  split <;> rfl

theorem setNRGBA_pix_self (p : NRGBAImage) (x y : Int) (c : NRGBA) (h : p.Rect.Has x y = true) :
    (p.SetNRGBA x y c).pix x y = c := by
  simp [NRGBAImage.SetNRGBA, h]

theorem setNRGBA_pix_other (p : NRGBAImage) (x y a b : Int) (c : NRGBA)
    (h : ¬ (a = x ∧ b = y)) : (p.SetNRGBA x y c).pix a b = p.pix a b := by
  unfold NRGBAImage.SetNRGBA
  split
  · simp [h]
  · rfl

/-- One row of `resize` with a ratio of at least one: the inner loop finishes,
reads only source pixels inside the bounds and leaves row `j` of the output
holding the converted source pixels of row `y`. -/
theorem resizeRow_spec (img : Image) (ratio : Int) (hratio : 1 ≤ ratio) (fuel : Nat)
    (hfuel : img.Rect.Dx.toNat ≤ fuel) (y j : Int)
    (hy : img.Rect.Min.Y ≤ y ∧ y < img.Rect.Max.Y)
    (hyj : y = img.Rect.Min.Y + (j - img.Rect.Min.Y) * ratio)
    (s : ResizeState) (R : Rectangle) (hR : s.output.Rect = R)
    (hreads : ∀ p ∈ s.reads, img.Rect.Has p.X p.Y = true)
    (hpix : ∀ a b, R.Has a b = true → img.Rect.Min.X ≤ a → img.Rect.Min.Y ≤ b → b < j →
      img.Rect.Min.X + (a - img.Rect.Min.X) * ratio < img.Rect.Max.X →
      s.output.pix a b = resizePixel (img.At (img.Rect.Min.X + (a - img.Rect.Min.X) * ratio)
        (img.Rect.Min.Y + (b - img.Rect.Min.Y) * ratio))) :
    ∃ s', resizeRow fuel img ratio (y, j) s = .finished s' ∧ s'.output.Rect = R ∧
      (∀ p ∈ s'.reads, img.Rect.Has p.X p.Y = true) ∧
      (∀ a b, R.Has a b = true → img.Rect.Min.X ≤ a → img.Rect.Min.Y ≤ b → b < j + 1 →
        img.Rect.Min.X + (a - img.Rect.Min.X) * ratio < img.Rect.Max.X →
        s'.output.pix a b = resizePixel (img.At (img.Rect.Min.X + (a - img.Rect.Min.X) * ratio)
          (img.Rect.Min.Y + (b - img.Rect.Min.Y) * ratio))) := by
  have key := forLoop_finished (fun xi : Int × Int => decide (xi.1 < img.Rect.Max.X))
    (fun xi => (xi.1 + ratio, xi.2 + 1)) (resizeCell img (y, j))
    (fun xi s' => img.Rect.Min.X ≤ xi.2 ∧
      xi.1 = img.Rect.Min.X + (xi.2 - img.Rect.Min.X) * ratio ∧ s'.output.Rect = R ∧
      (∀ p ∈ s'.reads, img.Rect.Has p.X p.Y = true) ∧
      (∀ a b, R.Has a b = true → img.Rect.Min.X ≤ a → img.Rect.Min.Y ≤ b →
        (b < j ∨ (b = j ∧ a < xi.2)) →
        img.Rect.Min.X + (a - img.Rect.Min.X) * ratio < img.Rect.Max.X →
        s'.output.pix a b = resizePixel (img.At (img.Rect.Min.X + (a - img.Rect.Min.X) * ratio)
          (img.Rect.Min.Y + (b - img.Rect.Min.Y) * ratio))))
    (fun xi => (img.Rect.Max.X - xi.1).toNat) ?_ fuel (img.Rect.Min.X, img.Rect.Min.X) s ?_ ?_
  · obtain ⟨xi', s', hrun, ⟨hi, hx, hR', hreads', hpix'⟩, hc⟩ := key
    refine ⟨s', hrun, hR', hreads', ?_⟩
    intro a b hab ha hb hbj hsrc
    apply hpix' a b hab ha hb _ hsrc
    by_cases hlt : b < j
    · exact Or.inl hlt
    · right
      refine ⟨by omega, ?_⟩
      have hge : img.Rect.Max.X ≤ xi'.1 := by simpa using hc
      rw [hx] at hge
      have h1 : (a - img.Rect.Min.X) * ratio < (xi'.2 - img.Rect.Min.X) * ratio := by omega
      have h2 := lt_of_mul_lt_mul_right h1 (by omega : (0 : Int) ≤ ratio)
      omega
  · rintro ⟨x, i⟩ s' hc ⟨hi, hx, hR', hreads', hpix'⟩
    have hlt : x < img.Rect.Max.X := by simpa using hc
    have hx' : x = img.Rect.Min.X + (i - img.Rect.Min.X) * ratio := hx
    have hx0 : img.Rect.Min.X ≤ x := by
      have := mul_nonneg (by omega : (0 : Int) ≤ i - img.Rect.Min.X) (by omega : (0 : Int) ≤ ratio)
      omega
    refine ⟨_, rfl, ⟨by simp only; omega, ?_, ?_, ?_, ?_⟩, ?_⟩
    · simp only
      rw [hx']
      ring
    · simp only [setNRGBA_rect]
      exact hR'
    · intro p hp
      simp only [List.mem_append, List.mem_singleton] at hp
      rcases hp with hp | rfl
      · exact hreads' p hp
      · rw [has_iff]
        simp only
        omega
    · intro a b hab ha hb hcase hsrc
      simp only at hcase ⊢
      by_cases hsame : a = i ∧ b = j
      · obtain ⟨rfl, rfl⟩ := hsame
        rw [setNRGBA_pix_self _ _ _ _ (by rw [hR']; exact hab), ← hx', ← hyj]
      · rw [setNRGBA_pix_other _ _ _ _ _ _ hsame]
        apply hpix' a b hab ha hb _ hsrc
        rcases hcase with h | ⟨h1, h2⟩
        · exact Or.inl h
        · right
          refine ⟨h1, ?_⟩
          simp only at hi
          by_contra hcon
          exact hsame ⟨by omega, h1⟩
    · simp only
      omega
  · simp only [Rectangle.Dx] at hfuel
    simp only
    omega
  · refine ⟨le_refl _, by simp, hR, hreads, ?_⟩
    intro a b hab ha hb hcase hsrc
    rcases hcase with h | ⟨_, h2⟩
    · exact hpix a b hab ha hb h hsrc
    · simp only at h2
      omega

theorem tdiv_ratio_pos (W n : Int) (hn : 1 ≤ n) (hW : n ≤ W) : 1 ≤ Int.tdiv W n := by
  rw [Int.tdiv_eq_ediv (by omega) (by omega)]
  exact (Int.le_ediv_iff_mul_le (by omega)).2 (by omega)

theorem resize_unfold (fuel : Nat) (img : Image) (newWidth : Int) (hn : newWidth ≠ 0)
    (hr : Int.tdiv img.Rect.Dx newWidth ≠ 0) :
    resize fuel img newWidth =
      forLoop (fun yj : Int × Int => decide (yj.1 < img.Rect.Max.Y))
        (fun yj => (yj.1 + Int.tdiv img.Rect.Dx newWidth, yj.2 + 1))
        (resizeRow fuel img (Int.tdiv img.Rect.Dx newWidth)) fuel
        (img.Rect.Min.Y, img.Rect.Min.Y)
        ⟨NewNRGBA (Rect (Int.tdiv img.Rect.Min.X (Int.tdiv img.Rect.Dx newWidth))
          (Int.tdiv img.Rect.Min.Y (Int.tdiv img.Rect.Dx newWidth))
          (Int.tdiv img.Rect.Max.X (Int.tdiv img.Rect.Dx newWidth))
          (Int.tdiv img.Rect.Max.Y (Int.tdiv img.Rect.Dx newWidth))), []⟩ := by
  simp only [resize, hn, hr, if_false]

/-- What `resize` does when `1 ≤ newWidth ≤ width`: with a step budget of at
least the width and the height it finishes; the output bounds are the source
bounds divided by the ratio; it reads only source pixels inside the bounds; and
every output pixel `(a, b)` inside the output bounds whose source coordinate
`Min + (a - Min.X)·ratio, Min + (b - Min.Y)·ratio` is inside the source holds
the converted source pixel. -/
theorem resize_spec (img : Image) (n : Int) (hn : 1 ≤ n) (hnW : n ≤ img.Rect.Dx)
    (fuel : Nat) (hfW : img.Rect.Dx.toNat ≤ fuel) (hfH : img.Rect.Dy.toNat ≤ fuel) :
    ∃ s, resize fuel img n = .finished s ∧
      s.output.Rect = Rect (Int.tdiv img.Rect.Min.X (Int.tdiv img.Rect.Dx n))
          (Int.tdiv img.Rect.Min.Y (Int.tdiv img.Rect.Dx n))
          (Int.tdiv img.Rect.Max.X (Int.tdiv img.Rect.Dx n))
          (Int.tdiv img.Rect.Max.Y (Int.tdiv img.Rect.Dx n)) ∧
      (∀ p ∈ s.reads, img.Rect.Has p.X p.Y = true) ∧
      (∀ a b, s.output.Rect.Has a b = true → img.Rect.Min.X ≤ a → img.Rect.Min.Y ≤ b →
        img.Rect.Min.X + (a - img.Rect.Min.X) * Int.tdiv img.Rect.Dx n < img.Rect.Max.X →
        img.Rect.Min.Y + (b - img.Rect.Min.Y) * Int.tdiv img.Rect.Dx n < img.Rect.Max.Y →
        s.output.pix a b =
          resizePixel (img.At (img.Rect.Min.X + (a - img.Rect.Min.X) * Int.tdiv img.Rect.Dx n)
            (img.Rect.Min.Y + (b - img.Rect.Min.Y) * Int.tdiv img.Rect.Dx n))) := by
  have hratio := tdiv_ratio_pos img.Rect.Dx n hn hnW
  rw [resize_unfold fuel img n (by omega) (by omega)]
  generalize hρ : Int.tdiv img.Rect.Dx n = ratio at hratio ⊢
  generalize hRd : Rect (Int.tdiv img.Rect.Min.X ratio) (Int.tdiv img.Rect.Min.Y ratio)
    (Int.tdiv img.Rect.Max.X ratio) (Int.tdiv img.Rect.Max.Y ratio) = R
  have key := forLoop_finished (fun yj : Int × Int => decide (yj.1 < img.Rect.Max.Y))
    (fun yj => (yj.1 + ratio, yj.2 + 1)) (resizeRow fuel img ratio)
    (fun yj s' => img.Rect.Min.Y ≤ yj.2 ∧
      yj.1 = img.Rect.Min.Y + (yj.2 - img.Rect.Min.Y) * ratio ∧ s'.output.Rect = R ∧
      (∀ p ∈ s'.reads, img.Rect.Has p.X p.Y = true) ∧
      (∀ a b, R.Has a b = true → img.Rect.Min.X ≤ a → img.Rect.Min.Y ≤ b → b < yj.2 →
        img.Rect.Min.X + (a - img.Rect.Min.X) * ratio < img.Rect.Max.X →
        s'.output.pix a b = resizePixel (img.At (img.Rect.Min.X + (a - img.Rect.Min.X) * ratio)
          (img.Rect.Min.Y + (b - img.Rect.Min.Y) * ratio))))
    (fun yj => (img.Rect.Max.Y - yj.1).toNat) ?_ fuel (img.Rect.Min.Y, img.Rect.Min.Y)
    ⟨NewNRGBA R, []⟩ ?_ ?_
  · obtain ⟨yj', s', hrun, ⟨hj, hy, hR', hreads', hpix'⟩, hc⟩ := key
    refine ⟨s', hrun, hR', hreads', ?_⟩
    intro a b hab ha hb hsx hsy
    rw [hR'] at hab
    apply hpix' a b hab ha hb _ hsx
    have hge : img.Rect.Max.Y ≤ yj'.1 := by simpa using hc
    rw [hy] at hge
    have h1 : (b - img.Rect.Min.Y) * ratio < (yj'.2 - img.Rect.Min.Y) * ratio := by omega
    have h2 := lt_of_mul_lt_mul_right h1 (by omega : (0 : Int) ≤ ratio)
    omega
  · rintro ⟨y, j⟩ s' hc ⟨hj, hy, hR', hreads', hpix'⟩
    have hlt : y < img.Rect.Max.Y := by simpa using hc
    have hy' : y = img.Rect.Min.Y + (j - img.Rect.Min.Y) * ratio := hy
    have hy0 : img.Rect.Min.Y ≤ y := by
      have := mul_nonneg (by omega : (0 : Int) ≤ j - img.Rect.Min.Y) (by omega : (0 : Int) ≤ ratio)
      omega
    obtain ⟨s'', hrow, hR'', hreads'', hpix''⟩ :=
      resizeRow_spec img ratio hratio fuel hfW y j ⟨hy0, hlt⟩ hy' s' R hR' hreads' hpix'
    refine ⟨s'', hrow, ⟨by simp only; omega, ?_, hR'', hreads'', hpix''⟩, ?_⟩
    · simp only
      rw [hy']
      ring
    · simp only
      omega
  · simp only [Rectangle.Dy] at hfH
    simp only
    omega
  · refine ⟨le_refl _, by simp, rfl, by simp, ?_⟩
    intro a b _ _ hb hbj _
    simp only at hbj
    omega

theorem resize_panics (fuel : Nat) (img : Image) (n : Int) (hW : 0 ≤ img.Rect.Dx)
    (hn : img.Rect.Dx < n) : resize fuel img n = .panicked ⟨NewNRGBA ZR, []⟩ := by
  have h0 : Int.tdiv img.Rect.Dx n = 0 := Int.tdiv_eq_zero_of_lt hW hn
  simp only [resize, h0, if_true]
  split <;> rfl

theorem rect_canonical (x0 y0 x1 y1 : Int) (hx : x0 ≤ x1) (hy : y0 ≤ y1) :
    Rect x0 y0 x1 y1 = ⟨⟨x0, y0⟩, ⟨x1, y1⟩⟩ := by
  simp [Rect, not_lt.2 hx, not_lt.2 hy]

/-! ### Claims on `resize` -/

/-- C7: `resize` computes its ratio as the integer quotient `width / targetSize`.
For `1 ≤ targetSize ≤ width` the ratio is at least 1 and `resize` finishes (with
any step budget of at least the width and the height) and returns an image, and
every source coordinate it reads lies inside the source bounds.  For
`targetSize > width` the ratio is 0 and `resize` returns no image: it panics on
the division by zero, whatever the step budget. -/
theorem resize_ratio_total (img : Image) (targetSize : Int) (hW : 0 ≤ img.Rect.Dx) :
    (1 ≤ targetSize → targetSize ≤ img.Rect.Dx →
      1 ≤ Int.tdiv img.Rect.Dx targetSize ∧
      ∀ fuel : Nat, img.Rect.Dx.toNat ≤ fuel → img.Rect.Dy.toNat ≤ fuel →
        ∃ s, resize fuel img targetSize = .finished s ∧
          ∀ p ∈ s.reads, img.Rect.Has p.X p.Y = true) ∧
    (img.Rect.Dx < targetSize →
      Int.tdiv img.Rect.Dx targetSize = 0 ∧
      ∀ fuel : Nat, ∃ s, resize fuel img targetSize = .panicked s) := by
  constructor
  · intro h1 h2
    refine ⟨tdiv_ratio_pos _ _ h1 h2, ?_⟩
    intro fuel hfW hfH
    obtain ⟨s, hs, _, hreads, _⟩ := resize_spec img targetSize h1 h2 fuel hfW hfH
    exact ⟨s, hs, hreads⟩
  · intro h
    refine ⟨Int.tdiv_eq_zero_of_lt hW h, ?_⟩
    intro fuel
    exact ⟨_, resize_panics fuel img targetSize hW h⟩

/-- Witness for C7: the 4×2 tile, resized to width 2 (ratio 2) with budget 4. -/
theorem resize_ratio_total_witness :
    (1 ≤ Int.tdiv tileWide.Rect.Dx 2 ∧
      ∀ fuel : Nat, tileWide.Rect.Dx.toNat ≤ fuel → tileWide.Rect.Dy.toNat ≤ fuel →
        ∃ s, resize fuel tileWide 2 = .finished s ∧
          ∀ p ∈ s.reads, tileWide.Rect.Has p.X p.Y = true) ∧
    (Int.tdiv tileWide.Rect.Dx 5 = 0 ∧ ∀ fuel : Nat, ∃ s, resize fuel tileWide 5 = .panicked s) :=
  ⟨(resize_ratio_total tileWide 2 (by decide)).1 (by decide) (by decide),
   (resize_ratio_total tileWide 5 (by decide)).2 (by decide)⟩

set_option maxRecDepth 20000 in
/-- C5 fails as stated: the 4×2 tile resized to `targetSize = 2` (ratio 2) comes
out 2 wide and 1 high, not 2×2; and the 5×5 tile resized to `targetSize = 3`
(ratio 1) comes out 5×5, not 3×3. -/
theorem resize_not_square :
    (resize 4 tileWide 2).isFinished = true ∧
    (resize 4 tileWide 2).state.output.Rect = ⟨⟨0, 0⟩, ⟨2, 1⟩⟩ ∧
    (resize 4 tileWide 2).state.output.Rect ≠ ⟨⟨0, 0⟩, ⟨2, 2⟩⟩ ∧
    (resize 5 tileFive 3).isFinished = true ∧
    (resize 5 tileFive 3).state.output.Rect = ⟨⟨0, 0⟩, ⟨5, 5⟩⟩ ∧
    (resize 5 tileFive 3).state.output.Rect ≠ ⟨⟨0, 0⟩, ⟨3, 3⟩⟩ := by
  refine ⟨by decide, by decide, by decide, by decide, by decide, by decide⟩

/-- C5 (amended): for a tile image with bounds `(0,0)-(W,H)` and a `targetSize`
with `1 ≤ targetSize ≤ W` that divides `W`, `resize` finishes and returns an
image with bounds `(0,0)-(targetSize, H / (W / targetSize))`: exactly
`targetSize` wide, its height divided by the same ratio; for a square tile
(`H = W`) the bounds are the `targetSize × targetSize` square. -/
theorem resize_bounds (img : Image) (W H targetSize : Int)
    (hrect : img.Rect = ⟨⟨0, 0⟩, ⟨W, H⟩⟩) (hH : 0 ≤ H)
    (h1 : 1 ≤ targetSize) (h2 : targetSize ≤ W) (hdvd : targetSize ∣ W)
    (fuel : Nat) (hfW : W.toNat ≤ fuel) (hfH : H.toNat ≤ fuel) :
    ∃ s, resize fuel img targetSize = .finished s ∧
      s.output.Rect = ⟨⟨0, 0⟩, ⟨targetSize, H / (W / targetSize)⟩⟩ ∧
      (H = W → s.output.Rect = ⟨⟨0, 0⟩, ⟨targetSize, targetSize⟩⟩) := by
  have hDx : img.Rect.Dx = W := by simp [Rectangle.Dx, hrect]
  have hDy : img.Rect.Dy = H := by simp [Rectangle.Dy, hrect]
  obtain ⟨s, hs, hR, _, _⟩ := resize_spec img targetSize h1 (by rw [hDx]; exact h2) fuel
    (by rw [hDx]; exact hfW) (by rw [hDy]; exact hfH)
  have hratio := tdiv_ratio_pos W targetSize h1 h2
  have hq : Int.tdiv W targetSize = W / targetSize := Int.tdiv_eq_ediv (by omega) (by omega)
  have hWq : Int.tdiv W (W / targetSize) = targetSize := by
    rw [Int.tdiv_eq_ediv (by omega) (by rw [← hq]; omega)]
    obtain ⟨q, rfl⟩ := hdvd
    have hq0 : q ≠ 0 := by
      rintro rfl
      simp at h2
      omega
    rw [Int.mul_ediv_cancel_left _ (by omega : targetSize ≠ 0)]
    exact Int.mul_ediv_cancel _ hq0
  have hHq : Int.tdiv H (W / targetSize) = H / (W / targetSize) :=
    Int.tdiv_eq_ediv hH (by rw [← hq]; omega)
  have hHq0 : 0 ≤ H / (W / targetSize) := Int.ediv_nonneg hH (by rw [← hq]; omega)
  have hrect' : s.output.Rect = ⟨⟨0, 0⟩, ⟨targetSize, H / (W / targetSize)⟩⟩ := by
    rw [hR, hDx, hrect, hq]
    simp only [Int.zero_tdiv, hWq, hHq]
    exact rect_canonical 0 0 _ _ (by omega) hHq0
  refine ⟨s, hs, hrect', ?_⟩
  intro hHW
  rw [hrect']
  subst hHW
  rw [← hHq, hWq]

/-- Witness for C5 (amended): the 4×2 tile resized to width 2. -/
theorem resize_bounds_witness :
    ∃ s, resize 4 tileWide 2 = .finished s ∧
      s.output.Rect = ⟨⟨0, 0⟩, ⟨2, 2 / (4 / 2)⟩⟩ ∧
      ((2 : Int) = 4 → s.output.Rect = ⟨⟨0, 0⟩, ⟨2, 2⟩⟩) :=
  resize_bounds tileWide 4 2 2 rfl (by decide) (by decide) (by decide) (by decide) 4
    (by decide) (by decide)

theorem lor_shift8 (v : Nat) (hv : v ≤ 255) : v ||| (v <<< 8) = v * 257 := by
  interval_cases v <;> rfl

theorem resizePixel_opaque8 (r g b : Nat) (hr : r ≤ 255) (hg : g ≤ 255) (hb : b ≤ 255) :
    resizePixel ⟨r * 257, g * 257, b * 257, 65535⟩ = ⟨r, g, b, 255⟩ := by
  simp only [resizePixel, Nat.shiftRight_eq_div_pow]
  have h : ∀ v : Nat, v ≤ 255 → v * 257 / 2 ^ 8 % 256 = v := by
    intro v hv
    interval_cases v <;> rfl
  rw [h r hr, h g hg, h b hb]

theorem nrgba_rgba_opaque8 (r g b : Nat) (hr : r ≤ 255) (hg : g ≤ 255) (hb : b ≤ 255) :
    NRGBA.RGBA ⟨r, g, b, 255⟩ = ⟨r * 257, g * 257, b * 257, 65535⟩ := by
  simp only [NRGBA.RGBA, lor_shift8 r hr, lor_shift8 g hg, lor_shift8 b hb,
    lor_shift8 255 (le_refl _)]
  simp

/-- C6 fails as stated: the 1×1 opaque image whose pixel has the 16-bit channel
value `0x1234`, resized to `n = 1`, yields the pixel `NRGBA{0x12,0x12,0x12,0xff}`,
whose colour has the channel value `0x1212`, not `0x1234`. -/
theorem resize_deep_pixel :
    (resize 1 pixelDeep 1).isFinished = true ∧
    (resize 1 pixelDeep 1).state.output.Rect = ⟨⟨0, 0⟩, ⟨1, 1⟩⟩ ∧
    pixelDeep.At 0 0 = ⟨4660, 4660, 4660, 65535⟩ ∧
    ((resize 1 pixelDeep 1).state.output.NRGBAAt 0 0).RGBA = ⟨4626, 4626, 4626, 65535⟩ ∧
    ((resize 1 pixelDeep 1).state.output.NRGBAAt 0 0).RGBA ≠ pixelDeep.At 0 0 := by
  decide

/-- C6 (amended): for `n ≥ 1` and an `n×n` source image with bounds `(0,0)-(n,n)`,
`resize(image, n)` uses ratio 1, finishes and returns an `n×n` image in which,
for every opaque source pixel `(x, y)` (alpha `65535`), the pixel `(x, y)` holds
the high 8 bits of each source channel, `NRGBA{r>>8, g>>8, b>>8, 255}`; its colour
is identical to the source pixel's colour whenever the source channels are
8-bit values (`r, g, b` of the form `v·257` with `v ≤ 255`). -/
theorem resize_identity (img : Image) (n : Int) (hn : 1 ≤ n)
    (hrect : img.Rect = ⟨⟨0, 0⟩, ⟨n, n⟩⟩) (fuel : Nat) (hfuel : n.toNat ≤ fuel) :
    Int.tdiv img.Rect.Dx n = 1 ∧
    ∃ s, resize fuel img n = .finished s ∧ s.output.Rect = ⟨⟨0, 0⟩, ⟨n, n⟩⟩ ∧
      ∀ x y : Int, 0 ≤ x → x < n → 0 ≤ y → y < n → (img.At x y).A = 65535 →
        s.output.NRGBAAt x y =
          ⟨((img.At x y).R >>> 8) % 256, ((img.At x y).G >>> 8) % 256,
            ((img.At x y).B >>> 8) % 256, 255⟩ ∧
        ∀ r g b : Nat, r ≤ 255 → g ≤ 255 → b ≤ 255 →
          img.At x y = ⟨r * 257, g * 257, b * 257, 65535⟩ →
          (s.output.NRGBAAt x y).RGBA = img.At x y := by
  have hDx : img.Rect.Dx = n := by simp [Rectangle.Dx, hrect]
  have hDy : img.Rect.Dy = n := by simp [Rectangle.Dy, hrect]
  have hone : Int.tdiv n n = 1 := by
    rw [Int.tdiv_eq_ediv (by omega) (by omega)]
    exact Int.ediv_self (by omega)
  obtain ⟨s, hs, hR, _, hpix⟩ := resize_spec img n hn (by rw [hDx]) fuel
    (by rw [hDx]; exact hfuel) (by rw [hDy]; exact hfuel)
  rw [hDx, hone] at hR hpix
  have hR' : s.output.Rect = ⟨⟨0, 0⟩, ⟨n, n⟩⟩ := by
    rw [hR, hrect]
    simp only [Int.tdiv_one]
    exact rect_canonical 0 0 n n (by omega) (by omega)
  refine ⟨by rw [hDx]; exact hone, s, hs, hR', ?_⟩
  intro x y hx0 hx1 hy0 hy1 hA
  have hin : s.output.Rect.Has x y = true := by
    rw [hR', has_iff]
    exact ⟨hx0, hx1, hy0, hy1⟩
  have hval : s.output.NRGBAAt x y = resizePixel (img.At x y) := by
    have h := hpix x y hin (by rw [hrect]; exact hx0) (by rw [hrect]; exact hy0)
      (by rw [hrect]; simp only; omega) (by rw [hrect]; simp only; omega)
    rw [hrect] at h
    simp only [sub_zero, mul_one, zero_add] at h
    simp only [NRGBAImage.NRGBAAt, hin, if_true]
    exact h
  constructor
  · rw [hval, resizePixel, hA]
    rfl
  · intro r g b hr hg hb hc
    rw [hval, hc, resizePixel_opaque8 r g b hr hg hb, nrgba_rgba_opaque8 r g b hr hg hb]

/-- Witness for C6 (amended): the 2×2 opaque 8-bit tile resized to 2. -/
theorem resize_identity_witness :
    Int.tdiv tileTwo.Rect.Dx 2 = 1 ∧
    ∃ s, resize 2 tileTwo 2 = .finished s ∧ s.output.Rect = ⟨⟨0, 0⟩, ⟨2, 2⟩⟩ ∧
      ∀ x y : Int, 0 ≤ x → x < 2 → 0 ≤ y → y < 2 → (tileTwo.At x y).A = 65535 →
        s.output.NRGBAAt x y =
          ⟨((tileTwo.At x y).R >>> 8) % 256, ((tileTwo.At x y).G >>> 8) % 256,
            ((tileTwo.At x y).B >>> 8) % 256, 255⟩ ∧
        ∀ r g b : Nat, r ≤ 255 → g ≤ 255 → b ≤ 255 →
          tileTwo.At x y = ⟨r * 257, g * 257, b * 257, 65535⟩ →
          (s.output.NRGBAAt x y).RGBA = tileTwo.At x y :=
  resize_identity tileTwo 2 (by decide) rfl 2 (by decide)

/-! ### `averageColor` -/

theorem ofNat_exact (n : ℕ) (h : n < 2 ^ 53) : F64.ofNat n = .finite (n : ℚ) :=
  round_repr _ (by rw [abs_of_nonneg (Nat.cast_nonneg n)]; exact repr_nat n h)

/-- Adding a converted channel value to an integer sum is exact while the sum stays
below `2^53`. -/
theorem fadd_nat (a b : ℕ) (h : a + b < 2 ^ 53) :
    F64.add (.finite (a : ℚ)) (F64.ofNat b) = .finite ((a + b : ℕ) : ℚ) := by
  rw [ofNat_exact b (by omega)]
  show F64.round ((a : ℚ) + b) = _
  rw [← Nat.cast_add]
  exact round_repr _ (by rw [abs_of_nonneg (Nat.cast_nonneg _)]; exact repr_nat _ h)

theorem foldl_addPixel (img : Image) (y : Int) :
    ∀ (xs : List Int) (a b c : ℕ),
      a + (xs.map fun x => (img.At x y).R).sum < 2 ^ 53 →
      b + (xs.map fun x => (img.At x y).G).sum < 2 ^ 53 →
      c + (xs.map fun x => (img.At x y).B).sum < 2 ^ 53 →
      xs.foldl (addPixel img y) (.finite (a : ℚ), .finite (b : ℚ), .finite (c : ℚ)) =
        (.finite ((a + (xs.map fun x => (img.At x y).R).sum : ℕ) : ℚ),
         .finite ((b + (xs.map fun x => (img.At x y).G).sum : ℕ) : ℚ),
         .finite ((c + (xs.map fun x => (img.At x y).B).sum : ℕ) : ℚ)) := by
  intro xs
  induction xs with
  | nil => intro a b c _ _ _; simp
  | cons x xs ih =>
    intro a b c ha hb hc
    simp only [List.map_cons, List.sum_cons] at ha hb hc
    have e : addPixel img y (.finite (a : ℚ), .finite (b : ℚ), .finite (c : ℚ)) x =
        (.finite ((a + (img.At x y).R : ℕ) : ℚ), .finite ((b + (img.At x y).G : ℕ) : ℚ),
          .finite ((c + (img.At x y).B : ℕ) : ℚ)) := by
      simp only [addPixel, fadd_nat a (img.At x y).R (by omega),
        fadd_nat b (img.At x y).G (by omega), fadd_nat c (img.At x y).B (by omega)]
    rw [List.foldl_cons, e, ih _ _ _ (by omega) (by omega) (by omega)]
    simp only [List.map_cons, List.sum_cons, Nat.add_assoc]

theorem foldl_rows (img : Image) (xs : List Int) :
    ∀ (ys : List Int) (a b c : ℕ),
      a + (ys.map fun y => (xs.map fun x => (img.At x y).R).sum).sum < 2 ^ 53 →
      b + (ys.map fun y => (xs.map fun x => (img.At x y).G).sum).sum < 2 ^ 53 →
      c + (ys.map fun y => (xs.map fun x => (img.At x y).B).sum).sum < 2 ^ 53 →
      ys.foldl (fun acc y => xs.foldl (addPixel img y) acc)
          (.finite (a : ℚ), .finite (b : ℚ), .finite (c : ℚ)) =
        (.finite ((a + (ys.map fun y => (xs.map fun x => (img.At x y).R).sum).sum : ℕ) : ℚ),
         .finite ((b + (ys.map fun y => (xs.map fun x => (img.At x y).G).sum).sum : ℕ) : ℚ),
         .finite ((c + (ys.map fun y => (xs.map fun x => (img.At x y).B).sum).sum : ℕ) : ℚ)) := by
  intro ys
  induction ys with
  | nil => intro a b c _ _ _; simp
  | cons y ys ih =>
    intro a b c ha hb hc
    simp only [List.map_cons, List.sum_cons] at ha hb hc
    rw [List.foldl_cons, foldl_addPixel img y xs a b c (by omega) (by omega) (by omega),
      ih _ _ _ (by omega) (by omega) (by omega)]
    simp only [List.map_cons, List.sum_cons, Nat.add_assoc]

theorem sum_range_map (f : Nat → Nat) (n : Nat) :
    ((List.range n).map f).sum = ∑ k in Finset.range n, f k := by
  induction n with
  | zero => simp
  | succ n ih => rw [List.range_succ, List.map_append, List.sum_append, ih,
      Finset.sum_range_succ]; simp

theorem sum_countUp (f : Int → Nat) (lo hi : Int) :
    ((countUp lo hi).map f).sum = ∑ k in Finset.range (hi - lo).toNat, f (lo + (k : Int)) := by
  rw [countUp, List.map_map, sum_range_map]
  rfl

/-- A channel with values of at most 65535 sums to at most `65535 · W · H` over a
`W × H` grid. -/
theorem sum_bound (f : Nat → Nat → Nat) (W H : Nat)
    (hf : ∀ i j, i < W → j < H → f i j ≤ 65535) :
    ∑ j in Finset.range H, ∑ i in Finset.range W, f i j ≤ 65535 * (W * H) := by
  have h1 : ∑ j in Finset.range H, ∑ i in Finset.range W, f i j
      ≤ ∑ _j in Finset.range H, ∑ _i in Finset.range W, 65535 := by
    apply Finset.sum_le_sum
    intro j hj
    apply Finset.sum_le_sum
    intro i hi
    exact hf i j (Finset.mem_range.1 hi) (Finset.mem_range.1 hj)
  have h2 : ∑ _j in Finset.range H, ∑ _i in Finset.range W, 65535 = 65535 * (W * H) := by
    simp only [Finset.sum_const, Finset.card_range, smul_eq_mul]
    ring
  omega

/-- What `averageColor` returns on an image of at least one and at most `2^37`
pixels with channel values of at most 65535: the channel sums are exact, and each
channel is the rounded quotient of its sum by the pixel count. -/
theorem averageColor_eq (img : Image) (hW : 1 ≤ img.Rect.Dx) (hH : 1 ≤ img.Rect.Dy)
    (hN : img.Rect.Dx * img.Rect.Dy ≤ 2 ^ 37)
    (hpx : ∀ x y, img.Rect.Has x y = true →
      (img.At x y).R ≤ 65535 ∧ (img.At x y).G ≤ 65535 ∧ (img.At x y).B ≤ 65535) :
    averageColor img =
      ⟨F64.round (((∑ j in Finset.range img.Rect.Dy.toNat, ∑ i in Finset.range img.Rect.Dx.toNat,
          (img.At (img.Rect.Min.X + (i : Int)) (img.Rect.Min.Y + (j : Int))).R : ℕ) : ℚ)
          / ((img.Rect.Dx.toNat * img.Rect.Dy.toNat : ℕ) : ℚ)),
       F64.round (((∑ j in Finset.range img.Rect.Dy.toNat, ∑ i in Finset.range img.Rect.Dx.toNat,
          (img.At (img.Rect.Min.X + (i : Int)) (img.Rect.Min.Y + (j : Int))).G : ℕ) : ℚ)
          / ((img.Rect.Dx.toNat * img.Rect.Dy.toNat : ℕ) : ℚ)),
       F64.round (((∑ j in Finset.range img.Rect.Dy.toNat, ∑ i in Finset.range img.Rect.Dx.toNat,
          (img.At (img.Rect.Min.X + (i : Int)) (img.Rect.Min.Y + (j : Int))).B : ℕ) : ℚ)
          / ((img.Rect.Dx.toNat * img.Rect.Dy.toNat : ℕ) : ℚ))⟩ := by
  have hin : ∀ (i j : Nat), i < img.Rect.Dx.toNat → j < img.Rect.Dy.toNat →
      img.Rect.Has (img.Rect.Min.X + (i : Int)) (img.Rect.Min.Y + (j : Int)) = true := by
    intro i j hi hj
    rw [has_iff]
    simp only [Rectangle.Dx, Rectangle.Dy] at hi hj
    omega
  have hcount : img.Rect.Dx.toNat * img.Rect.Dy.toNat ≤ 2 ^ 37 := by
    have h1 : ((img.Rect.Dx.toNat * img.Rect.Dy.toNat : ℕ) : ℤ) = img.Rect.Dx * img.Rect.Dy := by
      push_cast
      rw [Int.toNat_of_nonneg (by omega), Int.toNat_of_nonneg (by omega)]
    have h2 : ((img.Rect.Dx.toNat * img.Rect.Dy.toNat : ℕ) : ℤ) ≤ 2 ^ 37 := by rw [h1]; exact hN
    exact_mod_cast h2
  have hpos : 0 < img.Rect.Dx.toNat * img.Rect.Dy.toNat :=
    Nat.mul_pos (by omega) (by omega)
  have bR := sum_bound
    (fun i j => (img.At (img.Rect.Min.X + (i : Int)) (img.Rect.Min.Y + (j : Int))).R)
    _ _ (fun i j hi hj => (hpx _ _ (hin i j hi hj)).1)
  have bG := sum_bound
    (fun i j => (img.At (img.Rect.Min.X + (i : Int)) (img.Rect.Min.Y + (j : Int))).G)
    _ _ (fun i j hi hj => (hpx _ _ (hin i j hi hj)).2.1)
  have bB := sum_bound
    (fun i j => (img.At (img.Rect.Min.X + (i : Int)) (img.Rect.Min.Y + (j : Int))).B)
    _ _ (fun i j hi hj => (hpx _ _ (hin i j hi hj)).2.2)
  simp only at bR bG bB
  have hsums : channelSums img =
      (.finite ((∑ j in Finset.range img.Rect.Dy.toNat, ∑ i in Finset.range img.Rect.Dx.toNat,
          (img.At (img.Rect.Min.X + (i : Int)) (img.Rect.Min.Y + (j : Int))).R : ℕ) : ℚ),
       .finite ((∑ j in Finset.range img.Rect.Dy.toNat, ∑ i in Finset.range img.Rect.Dx.toNat,
          (img.At (img.Rect.Min.X + (i : Int)) (img.Rect.Min.Y + (j : Int))).G : ℕ) : ℚ),
       .finite ((∑ j in Finset.range img.Rect.Dy.toNat, ∑ i in Finset.range img.Rect.Dx.toNat,
          (img.At (img.Rect.Min.X + (i : Int)) (img.Rect.Min.Y + (j : Int))).B : ℕ) : ℚ)) := by
    have h0 : ((.finite 0, .finite 0, .finite 0) : F64 × F64 × F64) =
        (.finite ((0 : ℕ) : ℚ), .finite ((0 : ℕ) : ℚ), .finite ((0 : ℕ) : ℚ)) := by
      simp
    rw [channelSums, h0, foldl_rows img _ _ 0 0 0]
    · simp only [zero_add, sum_countUp, Rectangle.Dx, Rectangle.Dy]
    · simp only [zero_add, sum_countUp]
      simp only [Rectangle.Dx, Rectangle.Dy] at bR hcount
      omega
    · simp only [zero_add, sum_countUp]
      simp only [Rectangle.Dx, Rectangle.Dy] at bG hcount
      omega
    · simp only [zero_add, sum_countUp]
      simp only [Rectangle.Dx, Rectangle.Dy] at bB hcount
      omega
  have htot : F64.ofInt ((img.Rect.Max.X - img.Rect.Min.X) * (img.Rect.Max.Y - img.Rect.Min.Y))
      = .finite ((img.Rect.Dx.toNat * img.Rect.Dy.toNat : ℕ) : ℚ) := by
    have h1 : (img.Rect.Max.X - img.Rect.Min.X) * (img.Rect.Max.Y - img.Rect.Min.Y)
        = ((img.Rect.Dx.toNat * img.Rect.Dy.toNat : ℕ) : ℤ) := by
      push_cast
      rw [Int.toNat_of_nonneg (by omega), Int.toNat_of_nonneg (by omega)]
      rfl
    rw [h1, F64.ofInt, Int.cast_natCast]
    exact round_repr _ (by
      rw [abs_of_nonneg (Nat.cast_nonneg _)]
      exact repr_nat _ (by omega))
  have hne : ((img.Rect.Dx.toNat * img.Rect.Dy.toNat : ℕ) : ℚ) ≠ 0 := by
    exact_mod_cast hpos.ne'
  rw [averageColor]
  simp only [htot, hsums, F64.div, if_neg hne]

/-- C10 fails as stated: on the 3×1 image with the red values 257, 0 and 0 the red
channel returned by `averageColor` is the `float64` value `6028255751219883 / 2^46`,
not the arithmetic mean `257 / 3`. -/
theorem averageColor_not_mean :
    (averageColor tileThree).c0 = .finite (6028255751219883 / 70368744177664) ∧
    (averageColor tileThree).c0 ≠ .finite ((257 + 0 + 0) / (3 * 1)) := by
  have h := averageColor_eq tileThree (by decide) (by decide)
    (by norm_num [tileThree, Rectangle.Dx, Rectangle.Dy])
    (by
      intro x y _
      simp only [tileThree]
      split_ifs <;> norm_num)
  have hc : (averageColor tileThree).c0 = F64.round (257 / 3) := by
    rw [h]
    simp [tileThree, Rectangle.Dx, Rectangle.Dy, Finset.sum_range_succ]
  have hr : F64.round (257 / 3) = .finite (6028255751219883 / 70368744177664) := by
    have h := round_up (257 / 3) 6 6028255751219882 (-46) (by norm_num) (by norm_num)
      (by norm_num) (by decide) (by norm_num) (by norm_num) (by norm_num)
    rw [h]
    norm_num
  rw [hc, hr]
  refine ⟨rfl, ?_⟩
  intro hcon
  have := F64.finite.inj hcon
  norm_num at this

/-- C10 (amended): for an image with at least one and at most `2^37` pixels whose
channel values are on the 16-bit scale, each channel returned by `averageColor`
is the `float64` value nearest to the arithmetic mean of that channel over all
pixels (the sum of the channel values divided by the pixel count
`width × height`, rounded to nearest, ties to even), and lies in `[0, 65535]`. -/
theorem averageColor_mean (img : Image) (hW : 1 ≤ img.Rect.Dx) (hH : 1 ≤ img.Rect.Dy)
    (hN : img.Rect.Dx * img.Rect.Dy ≤ 2 ^ 37)
    (hpx : ∀ x y, img.Rect.Has x y = true →
      (img.At x y).R ≤ 65535 ∧ (img.At x y).G ≤ 65535 ∧ (img.At x y).B ≤ 65535) :
    averageColor img =
      ⟨F64.round ((∑ j in Finset.range img.Rect.Dy.toNat, ∑ i in Finset.range img.Rect.Dx.toNat,
          ((img.At (img.Rect.Min.X + (i : Int)) (img.Rect.Min.Y + (j : Int))).R : ℚ))
          / ((img.Rect.Dx.toNat * img.Rect.Dy.toNat : ℕ) : ℚ)),
       F64.round ((∑ j in Finset.range img.Rect.Dy.toNat, ∑ i in Finset.range img.Rect.Dx.toNat,
          ((img.At (img.Rect.Min.X + (i : Int)) (img.Rect.Min.Y + (j : Int))).G : ℚ))
          / ((img.Rect.Dx.toNat * img.Rect.Dy.toNat : ℕ) : ℚ)),
       F64.round ((∑ j in Finset.range img.Rect.Dy.toNat, ∑ i in Finset.range img.Rect.Dx.toNat,
          ((img.At (img.Rect.Min.X + (i : Int)) (img.Rect.Min.Y + (j : Int))).B : ℚ))
          / ((img.Rect.Dx.toNat * img.Rect.Dy.toNat : ℕ) : ℚ))⟩ ∧
    (averageColor img).InRange := by
  have heq := averageColor_eq img hW hH hN hpx
  have hin : ∀ (i j : Nat), i < img.Rect.Dx.toNat → j < img.Rect.Dy.toNat →
      img.Rect.Has (img.Rect.Min.X + (i : Int)) (img.Rect.Min.Y + (j : Int)) = true := by
    intro i j hi hj
    rw [has_iff]
    simp only [Rectangle.Dx, Rectangle.Dy] at hi hj
    omega
  have hpos : (0 : ℚ) < ((img.Rect.Dx.toNat * img.Rect.Dy.toNat : ℕ) : ℚ) := by
    have : 0 < img.Rect.Dx.toNat * img.Rect.Dy.toNat := Nat.mul_pos (by omega) (by omega)
    exact_mod_cast this
  have mean : ∀ f : Nat → Nat → Nat, (∀ i j, i < img.Rect.Dx.toNat → j < img.Rect.Dy.toNat →
      f i j ≤ 65535) →
      (F64.round (((∑ j in Finset.range img.Rect.Dy.toNat,
        ∑ i in Finset.range img.Rect.Dx.toNat, f i j : ℕ) : ℚ)
          / ((img.Rect.Dx.toNat * img.Rect.Dy.toNat : ℕ) : ℚ))).InRange := by
    intro f hf
    have hb := sum_bound f _ _ hf
    apply round_inRange
    · exact div_nonneg (Nat.cast_nonneg _) hpos.le
    · rw [div_le_iff₀ hpos]
      exact_mod_cast hb
  constructor
  · rw [heq]
    push_cast
    rfl
  · rw [heq]
    exact ⟨mean _ (fun i j hi hj => (hpx _ _ (hin i j hi hj)).1),
      mean _ (fun i j hi hj => (hpx _ _ (hin i j hi hj)).2.1),
      mean _ (fun i j hi hj => (hpx _ _ (hin i j hi hj)).2.2)⟩

/-- Witness for C10 (amended): the 2×2 tile with red values 0, 257, 514 and 771. -/
theorem averageColor_mean_witness : (averageColor tileTwo).InRange :=
  (averageColor_mean tileTwo (by decide) (by decide)
    (by norm_num [tileTwo, Rectangle.Dx, Rectangle.Dy])
    (by
      intro x y h
      rw [has_iff] at h
      simp only [tileTwo] at h ⊢
      omega)).2

/-! ### `draw.Draw` and `combine` -/

theorem empty_iff (r : Rectangle) :
    r.Empty = true ↔ r.Max.X ≤ r.Min.X ∨ r.Max.Y ≤ r.Min.Y := by
  simp [Rectangle.Empty]

theorem intersect_of_subset (r s : Rectangle) (hne : r.Empty = false)
    (h1 : s.Min.X ≤ r.Min.X) (h2 : s.Min.Y ≤ r.Min.Y)
    (h3 : r.Max.X ≤ s.Max.X) (h4 : r.Max.Y ≤ s.Max.Y) : r.Intersect s = r := by
  obtain ⟨⟨a, b⟩, ⟨c, d⟩⟩ := r
  simp only at h1 h2 h3 h4
  simp only [Rectangle.Intersect, not_lt.2 h1, not_lt.2 h2, gt_iff_lt, not_lt.2 h3,
    not_lt.2 h4, if_false, hne]
  rfl

theorem intersect_of_empty (r s : Rectangle) (he : r.Empty = true) : r.Intersect s = ZR := by
  have h : (⟨⟨if r.Min.X < s.Min.X then s.Min.X else r.Min.X,
      if r.Min.Y < s.Min.Y then s.Min.Y else r.Min.Y⟩,
     ⟨if r.Max.X > s.Max.X then s.Max.X else r.Max.X,
      if r.Max.Y > s.Max.Y then s.Max.Y else r.Max.Y⟩⟩ : Rectangle).Empty = true := by
    rw [empty_iff] at he ⊢
    simp only
    split_ifs <;> omega
  simp only [Rectangle.Intersect, h, if_true]

/-- Copying a buffer onto a destination at its own bounds, with the source
point at its own corner, replaces exactly the pixels of those bounds by the
buffer's pixels at the same coordinates. -/
theorem draw_aligned (dst src : NRGBAImage)
    (h1 : dst.Rect.Min.X ≤ src.Rect.Min.X) (h2 : dst.Rect.Min.Y ≤ src.Rect.Min.Y)
    (h3 : src.Rect.Max.X ≤ dst.Rect.Max.X) (h4 : src.Rect.Max.Y ≤ dst.Rect.Max.Y) :
    (draw dst src.Rect src src.Rect.Min).Rect = dst.Rect ∧
    (∀ x y, (draw dst src.Rect src src.Rect.Min).pix x y =
      if src.Rect.Has x y then src.pix x y else dst.pix x y) ∧
    (∀ x y, (clip dst.Rect src.Rect src.Rect src.Rect.Min).1.Has x y = true →
      src.Rect.Has x y = true) := by
  cases he : src.Rect.Empty
  · have hadd : src.Rect.Add ⟨src.Rect.Min.X - src.Rect.Min.X, src.Rect.Min.Y - src.Rect.Min.Y⟩
        = src.Rect := by
      simp [Rectangle.Add]
    have hclip : clip dst.Rect src.Rect src.Rect src.Rect.Min = (src.Rect, src.Rect.Min) := by
      simp only [clip, intersect_of_subset _ _ he h1 h2 h3 h4, hadd,
        intersect_of_subset _ _ he (le_refl _) (le_refl _) (le_refl _) (le_refl _)]
      simp
    simp only [draw, hclip, he]
    refine ⟨rfl, ?_, fun x y h => h⟩
    intro x y
    simp only [Bool.false_eq_true, if_false]
    by_cases hin : src.Rect.Has x y = true
    · simp only [hin, if_true, NRGBAImage.NRGBAAt]
      have e1 : src.Rect.Min.X + (x - src.Rect.Min.X) = x := by omega
      have e2 : src.Rect.Min.Y + (y - src.Rect.Min.Y) = y := by omega
      rw [e1, e2]
      simp only [hin, if_true]
    · simp only [hin, if_false]
      simp
  · have hclip : (clip dst.Rect src.Rect src.Rect src.Rect.Min).1 = ZR := by
      simp only [clip, intersect_of_empty _ _ he]
      have hz : ZR.Empty = true := by decide
      simp only [intersect_of_empty _ _ hz]
      split <;> rfl
    have hz : ZR.Empty = true := by decide
    simp only [draw, hclip, hz, if_true]
    refine ⟨trivial, ?_, ?_⟩
    · intro x y
      have hnot : src.Rect.Has x y = false := by
        rw [empty_iff] at he
        cases hh : src.Rect.Has x y
        · rfl
        · rw [has_iff] at hh
          omega
      simp [hnot]
    · intro x y h
      rw [has_iff] at h
      simp only [ZR] at h
      omega

theorem copyPoint_eq (W H : Int) (i : Fin 4) :
    copyPoint ⟨⟨0, 0⟩, ⟨W, H⟩⟩ i = (quadrant ⟨⟨0, 0⟩, ⟨W, H⟩⟩ i).toRect.Min := by
  fin_cases i <;> rfl

theorem quadrant_inside (W H : Int) (hW : 0 ≤ W) (hH : 0 ≤ H) (i : Fin 4) :
    0 ≤ (quadrant ⟨⟨0, 0⟩, ⟨W, H⟩⟩ i).x1 ∧ 0 ≤ (quadrant ⟨⟨0, 0⟩, ⟨W, H⟩⟩ i).y1 ∧
    (quadrant ⟨⟨0, 0⟩, ⟨W, H⟩⟩ i).x2 ≤ W ∧ (quadrant ⟨⟨0, 0⟩, ⟨W, H⟩⟩ i).y2 ≤ H := by
  have eW := tdiv_two W hW
  have eH := tdiv_two H hH
  fin_cases i <;> simp only [quadrant, Fin.zero_eta, Fin.mk_one, Fin.reduceFinMk, eW, eH] <;>
    omega

theorem quadrant_disjoint (W H : Int) (hW : 0 ≤ W) (hH : 0 ≤ H) (i j : Fin 4) (x y : Int)
    (hi : (quadrant ⟨⟨0, 0⟩, ⟨W, H⟩⟩ i).Covers x y)
    (hj : (quadrant ⟨⟨0, 0⟩, ⟨W, H⟩⟩ j).Covers x y) : i = j := by
  have eW := tdiv_two W hW
  have eH := tdiv_two H hH
  fin_cases i <;> fin_cases j <;>
    first
      | rfl
      | (exfalso
         simp only [Fin.zero_eta, Fin.mk_one, Fin.reduceFinMk, quadrant, eW, eH,
           Region.Covers] at hi hj
         omega)

theorem toRect_has (r : Region) (x y : Int) : r.toRect.Has x y = true ↔ r.Covers x y := by
  rw [has_iff]
  rfl

/-- One copy step of `combine` over a destination with the output bounds:
the bounds stay, the pixels of region `i` become those of its buffer, and every
other pixel keeps its value. -/
theorem copyImg_spec (W H : Int) (hW : 0 ≤ W) (hH : 0 ≤ H) (s : Fin 4 → NRGBAImage)
    (hs : ∀ i, (s i).Rect = (quadrant ⟨⟨0, 0⟩, ⟨W, H⟩⟩ i).toRect)
    (dst : NRGBAImage) (hdst : dst.Rect = ⟨⟨0, 0⟩, ⟨W, H⟩⟩) (i : Fin 4) :
    (copyImg ⟨⟨0, 0⟩, ⟨W, H⟩⟩ s dst i).Rect = ⟨⟨0, 0⟩, ⟨W, H⟩⟩ ∧
    (∀ x y, (copyImg ⟨⟨0, 0⟩, ⟨W, H⟩⟩ s dst i).pix x y =
      if (quadrant ⟨⟨0, 0⟩, ⟨W, H⟩⟩ i).toRect.Has x y then (s i).pix x y else dst.pix x y) ∧
    (∀ x y, (copyRect ⟨⟨0, 0⟩, ⟨W, H⟩⟩ s dst i).Has x y = true →
      (quadrant ⟨⟨0, 0⟩, ⟨W, H⟩⟩ i).Covers x y) := by
  obtain ⟨q1, q2, q3, q4⟩ := quadrant_inside W H hW hH i
  have hsp : copyPoint ⟨⟨0, 0⟩, ⟨W, H⟩⟩ i = (s i).Rect.Min := by
    rw [copyPoint_eq, hs i]
  have h := draw_aligned dst (s i)
    (by rw [hdst, hs i]; exact q1) (by rw [hdst, hs i]; exact q2)
    (by rw [hdst, hs i]; exact q3) (by rw [hdst, hs i]; exact q4)
  rw [copyImg, copyRect, hsp]
  refine ⟨by rw [h.1, hdst], ?_, ?_⟩
  · intro x y
    rw [h.2.1 x y, hs i]
  · intro x y hxy
    have := h.2.2 x y hxy
    rw [hs i] at this
    exact (toRect_has _ x y).1 this

theorem foldl_copyImg (W H : Int) (hW : 0 ≤ W) (hH : 0 ≤ H) (s : Fin 4 → NRGBAImage)
    (hs : ∀ i, (s i).Rect = (quadrant ⟨⟨0, 0⟩, ⟨W, H⟩⟩ i).toRect)
    (i : Fin 4) (x y : Int) (hxy : (quadrant ⟨⟨0, 0⟩, ⟨W, H⟩⟩ i).Covers x y) :
    ∀ (order : List (Fin 4)) (dst : NRGBAImage), dst.Rect = ⟨⟨0, 0⟩, ⟨W, H⟩⟩ →
      (order.foldl (copyImg ⟨⟨0, 0⟩, ⟨W, H⟩⟩ s) dst).pix x y =
        if i ∈ order then (s i).pix x y else dst.pix x y := by
  intro order
  induction order with
  | nil => intro dst _; simp
  | cons j rest ih =>
    intro dst hdst
    obtain ⟨hrect, hpix, _⟩ := copyImg_spec W H hW hH s hs dst hdst j
    rw [List.foldl_cons, ih _ hrect, hpix x y]
    by_cases hji : j = i
    · subst hji
      have hin : (quadrant ⟨⟨0, 0⟩, ⟨W, H⟩⟩ j).toRect.Has x y = true := (toRect_has _ x y).2 hxy
      simp [hin]
    · have hout : (quadrant ⟨⟨0, 0⟩, ⟨W, H⟩⟩ j).toRect.Has x y = false := by
        cases hh : (quadrant ⟨⟨0, 0⟩, ⟨W, H⟩⟩ j).toRect.Has x y
        · rfl
        · exact absurd (quadrant_disjoint W H hW hH j i x y ((toRect_has _ x y).1 hh) hxy) hji
      have hne : ¬ i = j := fun h => hji h.symm
      simp [hout, hne]

/-- C9: for an output rectangle `(0,0)-(W,H)` and four region buffers whose bounds
are the four quadrant rectangles, each copy step of `combine` writes only output
pixels inside its own region's rectangle, changes no pixel outside it and sets
the pixels inside it to those of its buffer at the same coordinates (region 1 at the origin, region 2 at
x offset `W/2`, region 3 at y offset `H/2`, region 4 at both); no pixel lies in
the rectangles of two copy steps; and after the four copies, in whatever order
they run, every output pixel `(x, y)` equals the pixel `(x, y)` of the region
buffer whose rectangle contains it. -/
theorem combine_frame (W H : Int) (hW : 0 ≤ W) (hH : 0 ≤ H) (s : Fin 4 → NRGBAImage)
    (hs : ∀ i, (s i).Rect = (quadrant ⟨⟨0, 0⟩, ⟨W, H⟩⟩ i).toRect) :
    (∀ (dst : NRGBAImage) (i : Fin 4), dst.Rect = ⟨⟨0, 0⟩, ⟨W, H⟩⟩ →
      (∀ x y, (copyRect ⟨⟨0, 0⟩, ⟨W, H⟩⟩ s dst i).Has x y = true →
        (quadrant ⟨⟨0, 0⟩, ⟨W, H⟩⟩ i).Covers x y) ∧
      (∀ x y, ¬ (quadrant ⟨⟨0, 0⟩, ⟨W, H⟩⟩ i).Covers x y →
        (copyImg ⟨⟨0, 0⟩, ⟨W, H⟩⟩ s dst i).pix x y = dst.pix x y) ∧
      (∀ x y, (quadrant ⟨⟨0, 0⟩, ⟨W, H⟩⟩ i).Covers x y →
        (copyImg ⟨⟨0, 0⟩, ⟨W, H⟩⟩ s dst i).pix x y = (s i).pix x y)) ∧
    (copyPoint ⟨⟨0, 0⟩, ⟨W, H⟩⟩ 0 = ⟨0, 0⟩ ∧ copyPoint ⟨⟨0, 0⟩, ⟨W, H⟩⟩ 1 = ⟨W / 2, 0⟩ ∧
      copyPoint ⟨⟨0, 0⟩, ⟨W, H⟩⟩ 2 = ⟨0, H / 2⟩ ∧
      copyPoint ⟨⟨0, 0⟩, ⟨W, H⟩⟩ 3 = ⟨W / 2, H / 2⟩) ∧
    (∀ (i j : Fin 4) (x y : Int), (quadrant ⟨⟨0, 0⟩, ⟨W, H⟩⟩ i).Covers x y →
      (quadrant ⟨⟨0, 0⟩, ⟨W, H⟩⟩ j).Covers x y → i = j) ∧
    (∀ order : List (Fin 4), order.Perm [0, 1, 2, 3] →
      (combine order ⟨⟨0, 0⟩, ⟨W, H⟩⟩ s).Rect = ⟨⟨0, 0⟩, ⟨W, H⟩⟩ ∧
      ∀ (i : Fin 4) (x y : Int), (quadrant ⟨⟨0, 0⟩, ⟨W, H⟩⟩ i).Covers x y →
        (combine order ⟨⟨0, 0⟩, ⟨W, H⟩⟩ s).pix x y = (s i).pix x y ∧
        (combine order ⟨⟨0, 0⟩, ⟨W, H⟩⟩ s).NRGBAAt x y = (s i).NRGBAAt x y) := by
  have eW := tdiv_two W hW
  have eH := tdiv_two H hH
  refine ⟨?_, ?_, quadrant_disjoint W H hW hH, ?_⟩
  · intro dst i hdst
    obtain ⟨_, hpix, hwr⟩ := copyImg_spec W H hW hH s hs dst hdst i
    refine ⟨hwr, ?_, ?_⟩
    · intro x y hout
      have hf : (quadrant ⟨⟨0, 0⟩, ⟨W, H⟩⟩ i).toRect.Has x y = false := by
        cases hh : (quadrant ⟨⟨0, 0⟩, ⟨W, H⟩⟩ i).toRect.Has x y
        · rfl
        · exact absurd ((toRect_has _ x y).1 hh) hout
      rw [hpix x y, hf]
      simp
    · intro x y hin
      rw [hpix x y, (toRect_has _ x y).2 hin]
      simp
  · refine ⟨?_, ?_, ?_, ?_⟩ <;> simp only [copyPoint, eW, eH]
  · intro order hperm
    have hrect : ∀ (l : List (Fin 4)) (dst : NRGBAImage), dst.Rect = ⟨⟨0, 0⟩, ⟨W, H⟩⟩ →
        (l.foldl (copyImg ⟨⟨0, 0⟩, ⟨W, H⟩⟩ s) dst).Rect = ⟨⟨0, 0⟩, ⟨W, H⟩⟩ := by
      intro l
      induction l with
      | nil => intro dst h; exact h
      | cons j rest ih =>
        intro dst h
        rw [List.foldl_cons]
        exact ih _ (copyImg_spec W H hW hH s hs dst h j).1
    have hR := hrect order (NewNRGBA ⟨⟨0, 0⟩, ⟨W, H⟩⟩) rfl
    refine ⟨hR, ?_⟩
    intro i x y hxy
    have hmem : i ∈ order := by
      rw [hperm.mem_iff]
      fin_cases i <;> simp
    have hp : (combine order ⟨⟨0, 0⟩, ⟨W, H⟩⟩ s).pix x y = (s i).pix x y := by
      rw [combine, foldl_copyImg W H hW hH s hs i x y hxy order _ rfl]
      simp [hmem]
    refine ⟨hp, ?_⟩
    have hin1 : (combine order ⟨⟨0, 0⟩, ⟨W, H⟩⟩ s).Rect.Has x y = true := by
      rw [combine, hR, has_iff]
      obtain ⟨q1, q2, q3, q4⟩ := quadrant_inside W H hW hH i
      obtain ⟨c1, c2, c3, c4⟩ := hxy
      simp only
      omega
    have hin2 : (s i).Rect.Has x y = true := by
      rw [hs i]
      exact (toRect_has _ x y).2 hxy
    simp only [NRGBAImage.NRGBAAt, hin1, hin2, if_true]
    exact hp

/-- Witness for C9: a 3×3 output assembled from four buffers, the copies
running in the order 3, 1, 4, 2. -/
theorem combine_frame_witness :
    (combine [2, 0, 3, 1] ⟨⟨0, 0⟩, ⟨3, 3⟩⟩ fourBuffers).Rect = ⟨⟨0, 0⟩, ⟨3, 3⟩⟩ ∧
      ∀ (i : Fin 4) (x y : Int), (quadrant ⟨⟨0, 0⟩, ⟨3, 3⟩⟩ i).Covers x y →
        (combine [2, 0, 3, 1] ⟨⟨0, 0⟩, ⟨3, 3⟩⟩ fourBuffers).pix x y = (fourBuffers i).pix x y ∧
        (combine [2, 0, 3, 1] ⟨⟨0, 0⟩, ⟨3, 3⟩⟩ fourBuffers).NRGBAAt x y
          = (fourBuffers i).NRGBAAt x y :=
  (combine_frame 3 3 (by decide) (by decide) fourBuffers (fun _ => rfl)).2.2.2
    [2, 0, 3, 1] (by decide)

/-! ### The region renderer -/

theorem getNearestTile_nil (target : Color3) : getNearestTile [] target = "" := rfl

/-- With an empty snapshot and an identifier `""` that cannot be opened, the body
of the inner loop of `cut` samples, looks up and leaves the buffer alone. -/
theorem cutCell_empty (fuel : Nat) (tiles : String → Option Image) (original : Image)
    (tileSize y x : Int) (s : RenderState) (hopen : tiles "" = none) :
    cutCell fuel tiles original [] tileSize y x s =
      .finished ⟨s.newImage, s.log ++ [Event.sample x y, Event.lookup ""]⟩ := by
  simp only [cutCell, getNearestTile_nil, hopen]

/-- Every event is a sample or a lookup that returned the empty identifier. -/
theorem blank_log_append (l : List Event) (x y : Int)
    (h : ∀ e ∈ l, (∃ a b, e = Event.sample a b) ∨ e = Event.lookup "") :
    ∀ e ∈ l ++ [Event.sample x y, Event.lookup ""],
      (∃ a b, e = Event.sample a b) ∨ e = Event.lookup "" := by
  intro e he
  simp only [List.mem_append, List.mem_cons, List.mem_singleton, List.not_mem_nil,
    or_false] at he
  rcases he with he | rfl | rfl
  · exact h e he
  · exact Or.inl ⟨x, y, rfl⟩
  · exact Or.inr rfl

/-- A region render over an empty snapshot, with a tile size of at least one,
finishes with a blank buffer and a log of samples and empty lookups only. -/
theorem cut_blank (fuel : Nat) (tiles : String → Option Image) (original : Image)
    (tileSize : Int) (r : Region) (hopen : tiles "" = none) (hts : 1 ≤ tileSize)
    (hfx : (r.x2 - r.x1).toNat ≤ fuel) (hfy : (r.y2 - r.y1).toNat ≤ fuel) :
    ∃ st, cut fuel tiles original [] tileSize r = .finished st ∧
      (∀ x y, st.newImage.pix x y = ⟨0, 0, 0, 0⟩) ∧
      (∀ e ∈ st.log, (∃ a b, e = Event.sample a b) ∨ e = Event.lookup "") := by
  have hrow : ∀ (y : Int) (s : RenderState),
      ((∀ a b, s.newImage.pix a b = ⟨0, 0, 0, 0⟩) ∧
        ∀ e ∈ s.log, (∃ a b, e = Event.sample a b) ∨ e = Event.lookup "") →
      ∃ s', cutRow fuel tiles original [] tileSize r y s = .finished s' ∧
        ((∀ a b, s'.newImage.pix a b = ⟨0, 0, 0, 0⟩) ∧
          ∀ e ∈ s'.log, (∃ a b, e = Event.sample a b) ∨ e = Event.lookup "") := by
    intro y s hs
    obtain ⟨_, s', hrun, hI, _⟩ := forLoop_finished (fun x : Int => decide (x < r.x2))
      (fun x => x + tileSize) (cutCell fuel tiles original [] tileSize y)
      (fun _ s' => (∀ a b, s'.newImage.pix a b = ⟨0, 0, 0, 0⟩) ∧
        ∀ e ∈ s'.log, (∃ a b, e = Event.sample a b) ∨ e = Event.lookup "")
      (fun x => (r.x2 - x).toNat)
      (by
        intro x s' hc hinv
        have hlt : x < r.x2 := by simpa using hc
        refine ⟨_, cutCell_empty fuel tiles original tileSize y x s' hopen,
          ⟨hinv.1, blank_log_append _ x y hinv.2⟩, ?_⟩
        simp only
        omega)
      fuel r.x1 s hfx hs
    exact ⟨s', hrun, hI⟩
  obtain ⟨_, s', hrun, hI, _⟩ := forLoop_finished (fun y : Int => decide (y < r.y2))
    (fun y => y + tileSize) (cutRow fuel tiles original [] tileSize r)
    (fun _ s' => (∀ a b, s'.newImage.pix a b = ⟨0, 0, 0, 0⟩) ∧
      ∀ e ∈ s'.log, (∃ a b, e = Event.sample a b) ∨ e = Event.lookup "")
    (fun y => (r.y2 - y).toNat)
    (by
      intro y s' hc hinv
      have hlt : y < r.y2 := by simpa using hc
      obtain ⟨s'', h1, h2⟩ := hrow y s' hinv
      refine ⟨s'', h1, h2, ?_⟩
      simp only
      omega)
    fuel r.y1 ⟨NewNRGBA (Rect r.x1 r.y1 r.x2 r.y2), []⟩ hfy
    ⟨fun _ _ => rfl, by simp⟩
  have hrows : cutRows fuel tiles original [] tileSize r = .finished s' := hrun
  refine ⟨⟨s'.newImage.SubImage s'.newImage.Rect, s'.log⟩, ?_, ?_, hI.2⟩
  · simp only [cut, hrows]
  · intro x y
    simp only [NRGBAImage.SubImage]
    split
    · rfl
    · exact hI.1 x y

theorem draw_rect (dst : NRGBAImage) (r : Rectangle) (src : NRGBAImage) (sp : Point) :
    (draw dst r src sp).Rect = dst.Rect := by
  unfold draw
  simp only
  split <;> rfl

/-- Drawing a blank buffer onto a blank buffer leaves it blank. -/
theorem draw_blank (dst : NRGBAImage) (r : Rectangle) (src : NRGBAImage) (sp : Point)
    (hdst : ∀ x y, dst.pix x y = ⟨0, 0, 0, 0⟩) (hsrc : ∀ x y, src.pix x y = ⟨0, 0, 0, 0⟩) :
    ∀ x y, (draw dst r src sp).pix x y = ⟨0, 0, 0, 0⟩ := by
  intro x y
  unfold draw
  simp only
  split
  · exact hdst x y
  · simp only
    split
    · simp only [NRGBAImage.NRGBAAt]
      split
      · exact hsrc _ _
      · rfl
    · exact hdst x y

theorem combine_blank (rec : Rectangle) (s : Fin 4 → NRGBAImage)
    (hs : ∀ i x y, (s i).pix x y = ⟨0, 0, 0, 0⟩) (order : List (Fin 4)) :
    (combine order rec s).Rect = rec ∧
    ∀ x y, (combine order rec s).pix x y = ⟨0, 0, 0, 0⟩ := by
  have h : ∀ (l : List (Fin 4)) (dst : NRGBAImage), dst.Rect = rec →
      (∀ x y, dst.pix x y = ⟨0, 0, 0, 0⟩) →
      (l.foldl (copyImg rec s) dst).Rect = rec ∧
      ∀ x y, (l.foldl (copyImg rec s) dst).pix x y = ⟨0, 0, 0, 0⟩ := by
    intro l
    induction l with
    | nil => intro dst h1 h2; exact ⟨h1, h2⟩
    | cons j rest ih =>
      intro dst h1 h2
      rw [List.foldl_cons]
      apply ih
      · rw [copyImg, draw_rect, h1]
      · exact draw_blank dst _ (s j) _ h2 (hs j)
  exact h order (NewNRGBA rec) rfl (fun _ _ => rfl)

/-- C8: for a source image with bounds `(0,0)-(W,H)` and a tile size of at least
one, when the snapshot is empty `getNearestTile` returns the empty identifier
for every colour and, opening it failing, no cell is drawn in any region; the
job finishes (with any step budget of at least `W` and `H`, in whatever order
the copies run), the assembled buffer has exactly the bounds of the source
image and every one of its pixels is blank. -/
theorem mosaic_empty_index (tiles : String → Option Image) (original : Image) (W H : Int)
    (hrect : original.Rect = ⟨⟨0, 0⟩, ⟨W, H⟩⟩) (hW : 0 ≤ W) (hH : 0 ≤ H)
    (tileSize : Int) (hts : 1 ≤ tileSize) (hopen : tiles "" = none)
    (order : List (Fin 4)) (fuel : Nat) (hfW : W.toNat ≤ fuel) (hfH : H.toNat ≤ fuel) :
    (∀ target, getNearestTile [] target = "") ∧
    ∃ st, mosaic fuel tiles original [] tileSize order = .finished st ∧
      st.newImage.Rect = original.Rect ∧
      (∀ x y, st.newImage.pix x y = ⟨0, 0, 0, 0⟩ ∧ st.newImage.NRGBAAt x y = ⟨0, 0, 0, 0⟩) ∧
      (∀ x y, Event.drawn x y ∉ st.log) ∧
      (∀ name, Event.lookup name ∈ st.log → name = "") := by
  refine ⟨getNearestTile_nil, ?_⟩
  have hcut : ∀ i : Fin 4, ∃ st, cut fuel tiles original [] tileSize (quadrant original.Rect i)
      = .finished st ∧ (∀ x y, st.newImage.pix x y = ⟨0, 0, 0, 0⟩) ∧
      (∀ e ∈ st.log, (∃ a b, e = Event.sample a b) ∨ e = Event.lookup "") := by
    intro i
    obtain ⟨q1, q2, q3, q4⟩ := quadrant_inside W H hW hH i
    apply cut_blank fuel tiles original tileSize _ hopen hts
    · rw [hrect]; omega
    · rw [hrect]; omega
  obtain ⟨s0, h0, p0, l0⟩ := hcut 0
  obtain ⟨s1, h1, p1, l1⟩ := hcut 1
  obtain ⟨s2, h2, p2, l2⟩ := hcut 2
  obtain ⟨s3, h3, p3, l3⟩ := hcut 3
  have hbuf : ∀ (i : Fin 4) (x y : Int),
      ((fun i => (cut fuel tiles original [] tileSize (quadrant original.Rect i)).state.newImage)
        i).pix x y = ⟨0, 0, 0, 0⟩ := by
    intro i x y
    fin_cases i
    · simp only [Fin.zero_eta, h0, Outcome.state]; exact p0 x y
    · simp only [Fin.mk_one, h1, Outcome.state]; exact p1 x y
    · simp only [Fin.reduceFinMk, h2, Outcome.state]; exact p2 x y
    · simp only [Fin.reduceFinMk, h3, Outcome.state]; exact p3 x y
  obtain ⟨hR, hP⟩ := combine_blank original.Rect _ hbuf order
  have hlog : ∀ e ∈ s0.log ++ s1.log ++ s2.log ++ s3.log,
      (∃ a b, e = Event.sample a b) ∨ e = Event.lookup "" := by
    intro e he
    simp only [List.mem_append] at he
    rcases he with ((he | he) | he) | he
    · exact l0 e he
    · exact l1 e he
    · exact l2 e he
    · exact l3 e he
  refine ⟨⟨combine order original.Rect
      (fun i => (cut fuel tiles original [] tileSize (quadrant original.Rect i)).state.newImage),
    s0.log ++ s1.log ++ s2.log ++ s3.log⟩, ?_, hR, ?_, ?_, ?_⟩
  · simp only [mosaic, h0, h1, h2, h3, Outcome.isFinished, Outcome.state, Bool.and_self,
      if_true]
  · intro x y
    refine ⟨hP x y, ?_⟩
    simp only [NRGBAImage.NRGBAAt, hP x y]
    split <;> rfl
  · intro x y hmem
    rcases hlog _ hmem with ⟨a, b, h⟩ | h
    · cases h
    · cases h
  · intro name hmem
    rcases hlog _ hmem with ⟨a, b, h⟩ | h
    · cases h
    · cases h
      rfl

/-- Witness for C8: the 2×2 tile as source image, tile size 1, no tile file at
all, the copies in region order. -/
theorem mosaic_empty_index_witness :
    ∃ st, mosaic 2 (fun _ => none) tileTwo [] 1 [0, 1, 2, 3] = .finished st ∧
      st.newImage.Rect = tileTwo.Rect ∧
      (∀ x y, st.newImage.pix x y = ⟨0, 0, 0, 0⟩ ∧ st.newImage.NRGBAAt x y = ⟨0, 0, 0, 0⟩) ∧
      (∀ x y, Event.drawn x y ∉ st.log) ∧
      (∀ name, Event.lookup name ∈ st.log → name = "") :=
  (mosaic_empty_index (fun _ => none) tileTwo 2 2 rfl (by decide) (by decide) 1 (by decide)
    rfl [0, 1, 2, 3] 2 (by decide) (by decide)).2

/-! ### Tile sizes that are not positive -/

/-- A relation that every loop body respects is respected by the loop. -/
theorem forLoop_rel {ι σ : Type} (R : σ → σ → Prop) (hrefl : ∀ s, R s s)
    (htrans : ∀ a b c, R a b → R b c → R a c) (cond : ι → Bool) (post : ι → ι)
    (body : ι → σ → Outcome σ) (hbody : ∀ i s, R s (body i s).state) :
    ∀ (fuel : Nat) (i : ι) (s : σ), R s (forLoop cond post body fuel i s).state := by
  intro fuel
  induction fuel with
  | zero =>
    intro i s
    simp only [forLoop]
    split <;> exact hrefl s
  | succ fuel ih =>
    intro i s
    simp only [forLoop]
    split
    · have hb := hbody i s
      cases hbs : body i s with
      | finished s' =>
        rw [hbs] at hb
        exact htrans _ _ _ hb (ih (post i) s')
      | panicked s' =>
        rw [hbs] at hb
        exact hb
      | running s' =>
        rw [hbs] at hb
        exact hb
    · exact hrefl s

/-- A loop whose variable does not move and whose condition holds never
finishes. -/
theorem forLoop_stuck {ι σ : Type} (cond : ι → Bool) (post : ι → ι)
    (body : ι → σ → Outcome σ) (i : ι) (hc : cond i = true) (hpost : post i = i) :
    ∀ (fuel : Nat) (s : σ), (forLoop cond post body fuel i s).isFinished = false := by
  intro fuel
  induction fuel with
  | zero => intro s; simp [forLoop, hc, Outcome.isFinished]
  | succ fuel ih =>
    intro s
    simp only [forLoop, hc, if_true]
    cases hbs : body i s with
    | finished s' => simp only [hpost]; exact ih s'
    | panicked s' => rfl
    | running s' => rfl

/-- A loop whose condition holds and whose body never finishes never finishes. -/
theorem forLoop_body_stuck {ι σ : Type} (cond : ι → Bool) (post : ι → ι)
    (body : ι → σ → Outcome σ) (i : ι) (hc : cond i = true)
    (hbody : ∀ s, (body i s).isFinished = false) (fuel : Nat) (s : σ) :
    (forLoop cond post body fuel i s).isFinished = false := by
  cases fuel with
  | zero => simp [forLoop, hc, Outcome.isFinished]
  | succ fuel =>
    simp only [forLoop, hc, if_true]
    have hb := hbody s
    cases hbs : body i s with
    | finished s' => rw [hbs] at hb; simp [Outcome.isFinished] at hb
    | panicked s' => rfl
    | running s' => rfl

/-- The body of the inner loop of `cut` first records the sample and the lookup
of its cell, whatever happens next. -/
theorem cutCell_log (fuel : Nat) (tiles : String → Option Image) (original : Image)
    (store : List (String × Color3)) (tileSize y x : Int) (s : RenderState) :
    ∃ rest, (cutCell fuel tiles original store tileSize y x s).state.log =
      s.log ++ (Event.sample x y ::
        Event.lookup (getNearestTile store
          ⟨F64.ofNat (original.At x y).R, F64.ofNat (original.At x y).G,
            F64.ofNat (original.At x y).B⟩)
        :: rest) := by
  simp only [cutCell]
  split
  · split
    · exact ⟨[Event.drawn x y], by simp [Outcome.state]⟩
    · exact ⟨[], by simp [Outcome.state]⟩
    · exact ⟨[], by simp [Outcome.state]⟩
  · exact ⟨[], by simp [Outcome.state]⟩

theorem cutRow_extends (fuel : Nat) (tiles : String → Option Image) (original : Image)
    (store : List (String × Color3)) (tileSize : Int) (r : Region) (y : Int)
    (s : RenderState) :
    ∃ rest, (cutRow fuel tiles original store tileSize r y s).state.log = s.log ++ rest := by
  apply forLoop_rel (fun a b : RenderState => ∃ rest, b.log = a.log ++ rest)
  · intro a; exact ⟨[], by simp⟩
  · rintro a b c ⟨r1, h1⟩ ⟨r2, h2⟩
    exact ⟨r1 ++ r2, by rw [h2, h1, List.append_assoc]⟩
  · intro x s'
    obtain ⟨rest, h⟩ := cutCell_log fuel tiles original store tileSize y x s'
    exact ⟨_, h⟩

/-- A region render over a non-empty rectangle, given at least one step, starts
by sampling the pixel at its top-left corner and looking up its nearest tile. -/
theorem cut_first_cell (fuel : Nat) (tiles : String → Option Image) (original : Image)
    (store : List (String × Color3)) (tileSize : Int) (r : Region)
    (hx : r.x1 < r.x2) (hy : r.y1 < r.y2) :
    ∃ rest, (cut (fuel + 1) tiles original store tileSize r).state.log =
      Event.sample r.x1 r.y1 ::
        Event.lookup (getNearestTile store
          ⟨F64.ofNat (original.At r.x1 r.y1).R, F64.ofNat (original.At r.x1 r.y1).G,
            F64.ofNat (original.At r.x1 r.y1).B⟩) :: rest := by
  have hcx : (fun x : Int => decide (x < r.x2)) r.x1 = true := by simpa using hx
  have hcy : (fun y : Int => decide (y < r.y2)) r.y1 = true := by simpa using hy
  have hrow : ∀ s : RenderState, ∃ rest,
      (cutRow (fuel + 1) tiles original store tileSize r r.y1 s).state.log =
        s.log ++ (Event.sample r.x1 r.y1 ::
          Event.lookup (getNearestTile store
            ⟨F64.ofNat (original.At r.x1 r.y1).R, F64.ofNat (original.At r.x1 r.y1).G,
              F64.ofNat (original.At r.x1 r.y1).B⟩) :: rest) := by
    intro s
    obtain ⟨rest, hcell⟩ := cutCell_log (fuel + 1) tiles original store tileSize r.y1 r.x1 s
    simp only [cutRow, forLoop, hcx, if_true]
    cases hb : cutCell (fuel + 1) tiles original store tileSize r.y1 r.x1 s with
    | finished s' =>
      rw [hb] at hcell
      simp only [Outcome.state] at hcell
      obtain ⟨rest', hext⟩ := forLoop_rel
        (fun a b : RenderState => ∃ rest, b.log = a.log ++ rest)
        (fun a => ⟨[], by simp⟩)
        (fun a b c ⟨r1, h1⟩ ⟨r2, h2⟩ => ⟨r1 ++ r2, by rw [h2, h1, List.append_assoc]⟩)
        (fun x : Int => decide (x < r.x2)) (fun x => x + tileSize)
        (cutCell (fuel + 1) tiles original store tileSize r.y1)
        (fun x s'' => by
          obtain ⟨rest, h⟩ := cutCell_log (fuel + 1) tiles original store tileSize r.y1 x s''
          exact ⟨_, h⟩)
        fuel (r.x1 + tileSize) s'
      refine ⟨rest ++ rest', ?_⟩
      simp only
      rw [hext, hcell]
      simp
    | panicked s' =>
      rw [hb] at hcell
      exact ⟨rest, hcell⟩
    | running s' =>
      rw [hb] at hcell
      exact ⟨rest, hcell⟩
  have hrows : ∃ rest, (cutRows (fuel + 1) tiles original store tileSize r).state.log =
      Event.sample r.x1 r.y1 ::
        Event.lookup (getNearestTile store
          ⟨F64.ofNat (original.At r.x1 r.y1).R, F64.ofNat (original.At r.x1 r.y1).G,
            F64.ofNat (original.At r.x1 r.y1).B⟩) :: rest := by
    obtain ⟨rest, hfirst⟩ := hrow ⟨NewNRGBA (Rect r.x1 r.y1 r.x2 r.y2), []⟩
    simp only [cutRows, forLoop, hcy, if_true]
    cases hb : cutRow (fuel + 1) tiles original store tileSize r r.y1
        ⟨NewNRGBA (Rect r.x1 r.y1 r.x2 r.y2), []⟩ with
    | finished s' =>
      rw [hb] at hfirst
      simp only [Outcome.state, List.nil_append] at hfirst
      obtain ⟨rest', hext⟩ := forLoop_rel
        (fun a b : RenderState => ∃ rest, b.log = a.log ++ rest)
        (fun a => ⟨[], by simp⟩)
        (fun a b c ⟨r1, h1⟩ ⟨r2, h2⟩ => ⟨r1 ++ r2, by rw [h2, h1, List.append_assoc]⟩)
        (fun y : Int => decide (y < r.y2)) (fun y => y + tileSize)
        (cutRow (fuel + 1) tiles original store tileSize r)
        (fun y s'' => cutRow_extends (fuel + 1) tiles original store tileSize r y s'')
        fuel (r.y1 + tileSize) s'
      refine ⟨rest ++ rest', ?_⟩
      simp only
      rw [hext, hfirst]
      simp
    | panicked s' =>
      rw [hb] at hfirst
      exact ⟨rest, by simpa using hfirst⟩
    | running s' =>
      rw [hb] at hfirst
      exact ⟨rest, by simpa using hfirst⟩
  obtain ⟨rest, h⟩ := hrows
  refine ⟨rest, ?_⟩
  rw [← h]
  simp only [cut]
  split <;> simp_all [Outcome.state]

/-- With tile size 0 a region render over a non-empty rectangle never finishes:
its loop variable does not move, so it runs until a panic, if any, stops it. -/
theorem cut_zero_stuck (fuel : Nat) (tiles : String → Option Image) (original : Image)
    (store : List (String × Color3)) (r : Region) (hx : r.x1 < r.x2) (hy : r.y1 < r.y2) :
    (cut fuel tiles original store 0 r).isFinished = false := by
  have hcx : (fun x : Int => decide (x < r.x2)) r.x1 = true := by simpa using hx
  have hcy : (fun y : Int => decide (y < r.y2)) r.y1 = true := by simpa using hy
  have hrows : (cutRows fuel tiles original store 0 r).isFinished = false :=
    forLoop_body_stuck (fun y : Int => decide (y < r.y2)) (fun y => y + 0)
      (cutRow fuel tiles original store 0 r) r.y1 hcy
      (fun s => forLoop_stuck (fun x : Int => decide (x < r.x2)) (fun x => x + 0)
        (cutCell fuel tiles original store 0 r.y1) r.x1 hcx (by simp) fuel s)
      fuel ⟨NewNRGBA (Rect r.x1 r.y1 r.x2 r.y2), []⟩
  simp only [cut]
  cases hb : cutRows fuel tiles original store 0 r with
  | finished s' => rw [hb] at hrows; simp [Outcome.isFinished] at hrows
  | panicked s' => rfl
  | running s' => rfl

/-- The log of a job starts with the log of its first region render. -/
theorem mosaic_log (fuel : Nat) (tiles : String → Option Image) (original : Image)
    (store : List (String × Color3)) (tileSize : Int) (order : List (Fin 4)) :
    (mosaic fuel tiles original store tileSize order).state.log =
      (cut fuel tiles original store tileSize (quadrant original.Rect 0)).state.log ++
        ((cut fuel tiles original store tileSize (quadrant original.Rect 1)).state.log ++
          ((cut fuel tiles original store tileSize (quadrant original.Rect 2)).state.log ++
            (cut fuel tiles original store tileSize (quadrant original.Rect 3)).state.log)) := by
  simp only [mosaic]
  split
  · simp only [Outcome.state, List.append_assoc]
  · split
    · simp only [Outcome.state, List.append_assoc]
    · simp only [Outcome.state, List.append_assoc]

/-- C4 fails as stated: `mosaic` does not check the tile size.  On the 2×2 source
image with tile size 0, and likewise with tile size -1, the job reports no
error before rendering: the region renders sample pixels and look up tiles, and
the job is still running when the step budget ends. -/
theorem mosaic_tileSize_zero_renders :
    (mosaic 1 (fun _ => none) tileTwo [] 0 [0, 1, 2, 3]).isFinished = false ∧
    (mosaic 1 (fun _ => none) tileTwo [] 0 [0, 1, 2, 3]).isPanicked = false ∧
    Event.sample 0 0 ∈ (mosaic 1 (fun _ => none) tileTwo [] 0 [0, 1, 2, 3]).state.log ∧
    Event.lookup "" ∈ (mosaic 1 (fun _ => none) tileTwo [] 0 [0, 1, 2, 3]).state.log ∧
    Event.sample 0 0 ∈ (mosaic 1 (fun _ => none) tileTwo [] (-1) [0, 1, 2, 3]).state.log ∧
    Event.lookup "" ∈ (mosaic 1 (fun _ => none) tileTwo [] (-1) [0, 1, 2, 3]).state.log := by
  refine ⟨by decide, by decide, by decide, by decide, by decide, by decide⟩

/-- C4 (amended): a mosaic job whose tile size is ≤ 0 is not rejected: the tile
size reaches the region renders unchecked, and each region render over a
non-empty rectangle, given at least one step, starts rendering by sampling the
source pixel at its top-left corner and looking up the nearest tile for it; so
does the job as a whole on a source image of at least 2×2 pixels.  With tile
size 0 such a render never finishes. -/
theorem tileSize_unchecked (fuel : Nat) (tiles : String → Option Image) (original : Image)
    (store : List (String × Color3)) (tileSize : Int) (order : List (Fin 4)) :
    tileSize ≤ 0 →
    (∀ r : Region, r.x1 < r.x2 → r.y1 < r.y2 →
      (∃ rest, (cut (fuel + 1) tiles original store tileSize r).state.log =
        Event.sample r.x1 r.y1 ::
          Event.lookup (getNearestTile store
            ⟨F64.ofNat (original.At r.x1 r.y1).R, F64.ofNat (original.At r.x1 r.y1).G,
              F64.ofNat (original.At r.x1 r.y1).B⟩) :: rest) ∧
      (tileSize = 0 → (cut (fuel + 1) tiles original store tileSize r).isFinished = false)) ∧
    (∀ W H : Int, original.Rect = ⟨⟨0, 0⟩, ⟨W, H⟩⟩ → 2 ≤ W → 2 ≤ H →
      (∃ rest, (mosaic (fuel + 1) tiles original store tileSize order).state.log =
        Event.sample 0 0 ::
          Event.lookup (getNearestTile store
            ⟨F64.ofNat (original.At 0 0).R, F64.ofNat (original.At 0 0).G,
              F64.ofNat (original.At 0 0).B⟩) :: rest) ∧
      (tileSize = 0 →
        (mosaic (fuel + 1) tiles original store tileSize order).isFinished = false)) := by
  intro _
  constructor
  · intro r hx hy
    refine ⟨cut_first_cell fuel tiles original store tileSize r hx hy, ?_⟩
    rintro rfl
    exact cut_zero_stuck (fuel + 1) tiles original store r hx hy
  · intro W H hrect hW hH
    have eW := tdiv_two W (by omega)
    have eH := tdiv_two H (by omega)
    have hq : quadrant original.Rect 0 = ⟨0, 0, W / 2, H / 2⟩ := by
      rw [hrect]
      simp only [quadrant, eW, eH]
    have hx : (quadrant original.Rect 0).x1 < (quadrant original.Rect 0).x2 := by
      rw [hq]; simp only; omega
    have hy : (quadrant original.Rect 0).y1 < (quadrant original.Rect 0).y2 := by
      rw [hq]; simp only; omega
    obtain ⟨rest, hfirst⟩ := cut_first_cell fuel tiles original store tileSize _ hx hy
    rw [hq] at hfirst
    simp only at hfirst
    constructor
    · have h := mosaic_log (fuel + 1) tiles original store tileSize order
      rw [hq] at h
      rw [h, hfirst]
      exact ⟨_, rfl⟩
    · rintro rfl
      have hstuck := cut_zero_stuck (fuel + 1) tiles original store _ hx hy
      simp only [mosaic, hstuck, Bool.false_and, Bool.false_eq_true, if_false]
      split <;> rfl

/-- Witness for C4 (amended): the 2×2 tile as source image, tile size 0, no tile
file, two steps. -/
theorem tileSize_unchecked_witness :
    (∃ rest, (mosaic (1 + 1) (fun _ => none) tileTwo [] 0 [0, 1, 2, 3]).state.log =
        Event.sample 0 0 ::
          Event.lookup (getNearestTile []
            ⟨F64.ofNat (tileTwo.At 0 0).R, F64.ofNat (tileTwo.At 0 0).G,
              F64.ofNat (tileTwo.At 0 0).B⟩)
          :: rest) ∧
      ((0 : Int) = 0 →
        (mosaic (1 + 1) (fun _ => none) tileTwo [] 0 [0, 1, 2, 3]).isFinished = false) :=
  (tileSize_unchecked 1 (fun _ => none) tileTwo [] 0 [0, 1, 2, 3] (by decide)).2 2 2 rfl
    (by decide) (by decide)

end MosaicGo
